import Mathlib

/-!
Verification development for the `fresh` editor's buffer storage and recovery
engine.  Source functions are embedded shallowly: bytes are `Nat` (0..255),
byte strings are `List Nat`, file names are `List Char`, fallible Rust code
returns `Except`, and a Rust panic (out-of-bounds slice) is modelled by the
`none` case of an outer `Option`.
-/

namespace Recovery

/-- Modelled from the spec: `compute_checksum` lives in
`services/recovery/types.rs`, which is not part of the sources at hand.  The
spec uses the checksum as a content fingerprint (chunk `verify()` recomputes it
and compares; the modified flag compares the current fingerprint with the
saved one), so it is modelled as a collision-free fingerprint of the content. -/
def compute_checksum (content : List Nat) : List Nat :=
  content

/-- Modelled from the spec: `RecoveryChunk` (types.rs, not in the sources at
hand): a byte-range replacement `offset`/`original_len`/`content` plus a
checksum of `content`. -/
structure RecoveryChunk where
  offset : Nat
  original_len : Nat
  content : List Nat
  checksum : List Nat
deriving DecidableEq, Repr

/-- Modelled from the spec: `RecoveryChunk::new` computes the checksum of the
given content (the tests build chunks as `RecoveryChunk::new(offset,
original_len, content)` and they pass `verify`). -/
def RecoveryChunk.new (offset original_len : Nat) (content : List Nat) : RecoveryChunk :=
  ⟨offset, original_len, content, compute_checksum content⟩

/-- Modelled from the spec: `verify()` recomputes the checksum and compares. -/
def RecoveryChunk.verify (c : RecoveryChunk) : Bool :=
  c.checksum == compute_checksum c.content

/-- Modelled from the spec: `ChunkedRecoveryData` (types.rs): an ordered list
of chunks plus the recorded original and final sizes. -/
structure ChunkedRecoveryData where
  original_size : Nat
  chunks : List RecoveryChunk
  final_size : Nat
deriving DecidableEq, Repr

/-- Error cases of `reconstruct_from_chunks` (each `io::Error` the source
constructs, kept distinguishable). -/
inductive RecoveryError where
  | sizeMismatch (expected got : Nat)
  | checksumMismatch (offset : Nat)
deriving DecidableEq, Repr

/-- Models the Rust slice `&v[lo..hi]`: `none` is an out-of-bounds panic. -/
def sliceRange (l : List Nat) (lo hi : Nat) : Option (List Nat) :=
  if lo ≤ hi ∧ hi ≤ l.length then some ((l.drop lo).take (hi - lo)) else none

/-- The chunk-application loop of `RecoveryStorage::reconstruct_from_chunks`
(storage.rs lines 336-365): per chunk, verify the checksum, copy the untouched
original bytes in `[original_pos, chunk.offset)` when `chunk.offset >
original_pos`, append the chunk's content, and advance `original_pos` past
`original_len`; at the end copy the remaining original suffix.  The outer
`Option` is `none` exactly when a slice would panic. -/
def applyChunksLoop (original : List Nat) :
    List RecoveryChunk → Nat → List Nat → Option (Except RecoveryError (List Nat))
  | [], original_pos, result =>
      some (Except.ok
        (if original_pos < original.length then result ++ original.drop original_pos else result))
  | chunk :: rest, original_pos, result =>
      if chunk.verify = false then
        some (Except.error (RecoveryError.checksumMismatch chunk.offset))
      else
        match (if original_pos < chunk.offset then
                 sliceRange original original_pos chunk.offset
               else some []) with
        | none => none
        | some part =>
            applyChunksLoop original rest (chunk.offset + chunk.original_len)
              (result ++ part ++ chunk.content)

/-- `RecoveryStorage::reconstruct_from_chunks` (storage.rs lines 311-366),
taking the already-deserialized `ChunkedRecoveryData` and the bytes of the
original file: first the size check against `original_size`, then the chunk
loop. -/
def reconstruct_from_chunks (data : ChunkedRecoveryData) (original_content : List Nat) :
    Option (Except RecoveryError (List Nat)) :=
  if original_content.length ≠ data.original_size then
    some (Except.error (RecoveryError.sizeMismatch data.original_size original_content.length))
  else
    applyChunksLoop original_content data.chunks 0 []

/-- Stated from the claim's words (for the refinement comparison): for each
chunk in ascending offset order, the untouched original bytes since the
previous cursor position, then the chunk's replacement content, skipping
`original_len` original bytes; finally the untouched original suffix. -/
def claimSpliceGo (original : List Nat) : List RecoveryChunk → Nat → List Nat
  | [], pos => original.drop pos
  | c :: rest, pos =>
      (original.drop pos).take (c.offset - pos) ++ c.content ++
        claimSpliceGo original rest (c.offset + c.original_len)

/-- Stated from the claim's words: splice all chunks into the original. -/
def claimSplice (original : List Nat) (chunks : List RecoveryChunk) : List Nat :=
  claimSpliceGo original chunks 0

/-- Chunks are in ascending offset order and pairwise non-overlapping, seen
from cursor position `pos`: each chunk starts at or after the cursor, and the
cursor then moves past its replaced range. -/
def ChunksOrdered : Nat → List RecoveryChunk → Prop
  | _, [] => True
  | pos, c :: rest => pos ≤ c.offset ∧ ChunksOrdered (c.offset + c.original_len) rest

/-- Every chunk's replaced range lies inside the first `n` bytes. -/
def ChunksInBounds (n : Nat) (chunks : List RecoveryChunk) : Prop :=
  ∀ c ∈ chunks, c.offset + c.original_len ≤ n

/-- Sum of the replaced-range lengths of a chunk list. -/
def sumOriginalLen (chunks : List RecoveryChunk) : Nat :=
  (chunks.map RecoveryChunk.original_len).sum

/-- Sum of the replacement-content lengths of a chunk list. -/
def sumContentLen (chunks : List RecoveryChunk) : Nat :=
  (chunks.map (fun c => c.content.length)).sum

/-- ASCII bytes of a string (all example contents are ASCII). -/
def strBytes (s : String) : List Nat :=
  s.toList.map Char.toNat

/-- Chunks of `test_chunked_recovery_reconstruction`: replace "World" (offset
7, 5 bytes) with "Universe" and "test" (offset 24, 4 bytes) with "sample". -/
def helloChunks : List RecoveryChunk :=
  [RecoveryChunk.new 7 5 (strBytes "Universe"), RecoveryChunk.new 24 4 (strBytes "sample")]

/-- Recovery data of `test_chunked_recovery_reconstruction` (original 52
bytes, final 52 - 5 + 8 - 4 + 6 = 57 bytes). -/
def helloData : ChunkedRecoveryData :=
  ⟨52, helloChunks, 57⟩

/-- Original file content of `test_chunked_recovery_reconstruction`. -/
def helloOriginal : List Nat :=
  strBytes "Hello, World! This is a test file with some content."

/-- Recovery data of `test_chunked_recovery_with_insertion`: insert "XYZ" at
offset 1 of "AB". -/
def insertData : ChunkedRecoveryData :=
  ⟨2, [RecoveryChunk.new 1 0 (strBytes "XYZ")], 5⟩

/-- Recovery data of `test_chunked_recovery_with_deletion`: delete 7 bytes at
offset 2 of "Hello World". -/
def deleteData : ChunkedRecoveryData :=
  ⟨11, [RecoveryChunk.new 2 7 []], 4⟩

/-- Recovery data of `test_chunked_recovery_size_mismatch`: recorded original
size 100, while the original file "Short" has 5 bytes. -/
def mismatchData : ChunkedRecoveryData :=
  ⟨100, [RecoveryChunk.new 0 1 (strBytes "X")], 100⟩

end Recovery

namespace Cleanup

/-- The suffix ".meta.json" that `cleanup_orphans` matches
(`format!(".{}", Self::META_EXT)` with `META_EXT = "meta.json"`). -/
def metaSuffix : List Char :=
  ".meta.json".toList

/-- The suffix ".content" that `cleanup_orphans` matches. -/
def contentSuffix : List Char :=
  ".content".toList

/-- The session lock file name, skipped by `cleanup_orphans`. -/
def sessionLock : List Char :=
  "session.lock".toList

/-- Models Rust `str::ends_with` on file names (names as char lists). -/
def endsWithStr (name suffix : List Char) : Bool :=
  decide (suffix.length ≤ name.length) && (name.drop (name.length - suffix.length) == suffix)

/-- Removes one copy of a suffix from the end of a name. -/
def stripOnce (name suffix : List Char) : List Char :=
  name.take (name.length - suffix.length)

/-- Fuel-bounded loop of `trimEndMatches`; each strip removes at least one
character, so `name.length` units of fuel are always enough. -/
def trimEndAux : Nat → List Char → List Char → List Char
  | 0, name, _ => name
  | fuel + 1, name, suffix =>
      if suffix ≠ [] ∧ endsWithStr name suffix = true then
        trimEndAux fuel (stripOnce name suffix) suffix
      else
        name

/-- Models Rust `str::trim_end_matches`: all trailing copies of the pattern
are removed repeatedly. -/
def trimEndMatches (name suffix : List Char) : List Char :=
  trimEndAux name.length name suffix

/-- Models `fs::remove_file` on a directory state: drops the name if present
(errors on a missing file are ignored by the source via `let _ = ...`). -/
def removeFile (files : List (List Char)) (name : List Char) : List (List Char) :=
  files.filter (fun f => f != name)

/-- Pair check and removal of the `cleanup_orphans` loop body, for a derived
id: if either file of the id's metadata/content pair is missing from the
current directory state, remove both (missing-file errors are ignored by the
source via `let _ = fs::remove_file(..)`) and count one cleanup. -/
def stepPair (st : Nat × List (List Char)) (id : List Char) : Nat × List (List Char) :=
  if id ++ metaSuffix ∉ st.2 ∨ id ++ contentSuffix ∉ st.2 then
    (st.1 + 1, removeFile (removeFile st.2 (id ++ metaSuffix)) (id ++ contentSuffix))
  else st

/-- One iteration of the `cleanup_orphans` loop (storage.rs lines 463-491) on
directory-entry `name`: skip the session lock, derive the id by
`trim_end_matches` of whichever recognized extension the name has (unknown
file types are skipped), then apply the pair check. -/
def cleanup_orphans_step (st : Nat × List (List Char)) (name : List Char) :
    Nat × List (List Char) :=
  if name = sessionLock then st
  else if endsWithStr name metaSuffix then stepPair st (trimEndMatches name metaSuffix)
  else if endsWithStr name contentSuffix then stepPair st (trimEndMatches name contentSuffix)
  else st

/-- `RecoveryStorage::cleanup_orphans` (storage.rs lines 456-494): iterate
over a snapshot of the directory listing, evolving the directory state as
files are removed; returns the cleanup count and the remaining files. -/
def cleanup_orphans (dir : List (List Char)) : Nat × List (List Char) :=
  dir.foldl cleanup_orphans_step (0, dir)

/-- Stated from the claim's words: the other file of a name's
metadata/content pair, for names carrying one of the two extensions. -/
def pairPartner (name : List Char) : Option (List Char) :=
  if endsWithStr name metaSuffix then some (stripOnce name metaSuffix ++ contentSuffix)
  else if endsWithStr name contentSuffix then some (stripOnce name contentSuffix ++ metaSuffix)
  else none

/-- Stated from the claim's words: a recovery-pair file is orphaned when the
other file of its pair does not exist in the directory. -/
def isOrphanFile (dir : List (List Char)) (name : List Char) : Bool :=
  name != sessionLock &&
    match pairPartner name with
    | some partner => !(decide (partner ∈ dir))
    | none => false

/-- A name is suffix-clean when stripping one copy of a recognized extension
does not leave a name ending in the same extension (true of every name the
storage itself creates, since ids are path hashes or generated ids). -/
def CleanName (name : List Char) : Prop :=
  (endsWithStr name metaSuffix = true → endsWithStr (stripOnce name metaSuffix) metaSuffix = false) ∧
  (endsWithStr name contentSuffix = true →
    endsWithStr (stripOnce name contentSuffix) contentSuffix = false)

/-- The directory state after the orphan files among the already-processed
snapshot entries `done` have been removed (the loop invariant's description of
the evolving directory). -/
def surviving (dir done : List (List Char)) : List (List Char) :=
  dir.filter (fun m => !(isOrphanFile dir m && decide (m ∈ done)))

end Cleanup

namespace Buffer

/-- Modelled from the spec (§3, §4.3; the piece-buffer source
`fresh::model::buffer` is not among the sources at hand): a piece is a span of
the logical document referencing either the original on-disk byte range or a
range of the in-memory append-only scratch buffer of inserted bytes. -/
inductive Piece where
  | original (off len : Nat)
  | added (off len : Nat)
deriving DecidableEq, Repr

/-- Length of the span a piece covers. -/
def Piece.len : Piece → Nat
  | .original _ l => l
  | .added _ l => l

/-- Modelled from the spec: the TextBuffer owns the ordered piece sequence,
the scratch region of inserted bytes, and the original file bytes as loaded
(reads of `Original` pieces resolve against the backing file through the
FileSystem; here the loaded bytes are carried directly). -/
structure TextBuffer where
  original : List Nat
  added : List Nat
  pieces : List Piece
deriving DecidableEq, Repr

/-- Resolve one piece to its bytes. -/
def resolve (orig add : List Nat) : Piece → List Nat
  | .original o l => (orig.drop o).take l
  | .added o l => (add.drop o).take l

/-- Concatenation of all pieces, in order: the current document bytes. -/
def contentOf (orig add : List Nat) (ps : List Piece) : List Nat :=
  (ps.map (resolve orig add)).flatten

/-- Current document bytes of a buffer. -/
def TextBuffer.content (tb : TextBuffer) : List Nat :=
  contentOf tb.original tb.added tb.pieces

/-- Sum of the piece lengths. -/
def totalLen (ps : List Piece) : Nat :=
  (ps.map Piece.len).sum

/-- Modelled from the spec: `total_bytes()` is the maintained total byte
length, which must equal the sum of piece lengths. -/
def TextBuffer.total_bytes (tb : TextBuffer) : Nat :=
  totalLen tb.pieces

/-- A piece's span lies inside its backing store. -/
def PieceWF (orig add : List Nat) : Piece → Prop
  | .original o l => o + l ≤ orig.length
  | .added o l => o + l ≤ add.length

/-- Every piece of the buffer is backed. -/
def TextBuffer.WF (tb : TextBuffer) : Prop :=
  ∀ p ∈ tb.pieces, PieceWF tb.original tb.added p

/-- First half of a piece split at `k`. -/
def pieceTake : Piece → Nat → Piece
  | .original o _, k => .original o k
  | .added o _, k => .added o k

/-- Second half of a piece split at `k`. -/
def pieceDrop : Piece → Nat → Piece
  | .original o l, k => .original (o + k) (l - k)
  | .added o l, k => .added (o + k) (l - k)

/-- Modelled from the spec: locate byte offset `pos` in the piece sequence,
splitting the covering piece in two when `pos` falls mid-piece; a `pos` at a
piece boundary requires no split. -/
def splitPieces : List Piece → Nat → List Piece × List Piece
  | ps, 0 => ([], ps)
  | [], _ => ([], [])
  | p :: rest, pos =>
      if p.len ≤ pos then
        let s := splitPieces rest (pos - p.len)
        (p :: s.1, s.2)
      else
        ([pieceTake p pos], pieceDrop p pos :: rest)

/-- Modelled from the spec: `insert_bytes(pos, data)` splits the piece
covering `pos`, appends `data` to the scratch region, and inserts a new
`Added` piece between the split halves (a zero-length insertion adds no piece:
zero-length pieces are pruned). -/
def insert_bytes (tb : TextBuffer) (pos : Nat) (data : List Nat) : TextBuffer :=
  if data.isEmpty then tb
  else
    let s := splitPieces tb.pieces pos
    { original := tb.original
      added := tb.added ++ data
      pieces := s.1 ++ (Piece.added tb.added.length data.length :: s.2) }

/-- Modelled from the spec: `delete_bytes(pos, len)` removes, truncates or
splits the pieces overlapping `[pos, pos+len)`. -/
def delete_bytes (tb : TextBuffer) (pos len : Nat) : TextBuffer :=
  let s := splitPieces tb.pieces pos
  let t := splitPieces s.2 len
  { tb with pieces := s.1 ++ t.2 }

/-- Modelled from the spec: a `WriteOp` is `Copy{offset, len}` (bytes copied
verbatim from the on-disk original) or `Insert{data}` (new bytes supplied by
the buffer). -/
inductive WriteOp where
  | copy (offset len : Nat)
  | insert (data : List Nat)
deriving DecidableEq, Repr

/-- Modelled from the spec: the minimal write recipe of `save_to_file` —
merge-scan the piece list, turning `Original` pieces into `Copy` and `Added`
pieces into `Insert` with materialized bytes. -/
def write_ops (tb : TextBuffer) : List WriteOp :=
  tb.pieces.map fun p =>
    match p with
    | .original o l => WriteOp.copy o l
    | .added o l => WriteOp.insert ((tb.added.drop o).take l)

/-- Modelled from the spec: `write_patched` replays the recipe against the
current on-disk bytes (`Copy` ranges reference the source file, `Insert`
supplies new bytes). -/
def applyWriteOps (src : List Nat) (ops : List WriteOp) : List Nat :=
  (ops.map fun op =>
    match op with
    | .copy o l => (src.drop o).take l
    | .insert d => d).flatten

/-- Modelled from the spec: a freshly loaded buffer — every byte of the source
file represented by exactly one piece (an empty file loads with no pieces). -/
def load_buffer (file : List Nat) : TextBuffer :=
  ⟨file, [], if file.isEmpty then [] else [Piece.original 0 file.length]⟩

/-- The naive shadow model's insert: splice bytes at a position. -/
def insertShadow (l : List Nat) (pos : Nat) (data : List Nat) : List Nat :=
  l.take pos ++ data ++ l.drop pos

/-- The naive shadow model's delete: remove a byte range. -/
def deleteShadow (l : List Nat) (pos len : Nat) : List Nat :=
  l.take pos ++ l.drop (pos + len)

/-- One step of the edit scripts the claim quantifies over: an insert, a
delete, or a save-to-the-original-path followed by a fresh load. -/
inductive EditOp where
  | ins (pos : Nat) (data : List Nat)
  | del (pos len : Nat)
  | saveReload
deriving DecidableEq, Repr

/-- The system state: the on-disk bytes and the live buffer. -/
structure SysState where
  disk : List Nat
  buf : TextBuffer
deriving DecidableEq, Repr

/-- Step of the buffer-and-disk system: edits mutate the buffer;
`saveReload` writes the patch recipe to disk and loads the result afresh. -/
def stepSys (s : SysState) : EditOp → SysState
  | .ins p d => ⟨s.disk, insert_bytes s.buf p d⟩
  | .del p l => ⟨s.disk, delete_bytes s.buf p l⟩
  | .saveReload =>
      let newDisk := applyWriteOps s.disk (write_ops s.buf)
      ⟨newDisk, load_buffer newDisk⟩

/-- Run a script from a freshly loaded file. -/
def runSys (file : List Nat) (ops : List EditOp) : SysState :=
  ops.foldl stepSys ⟨file, load_buffer file⟩

/-- Step of the shadow model: the same splice on a plain byte array. -/
def stepShadow (sh : List Nat) : EditOp → List Nat
  | .ins p d => insertShadow sh p d
  | .del p l => deleteShadow sh p l
  | .saveReload => sh

/-- Run the shadow model. -/
def runShadow (file : List Nat) (ops : List EditOp) : List Nat :=
  ops.foldl stepShadow file

/-- Edit offsets are valid (inserts inside the content, deletes of ranges that
exist), tracked along the shadow evolution. -/
def ValidOps : List Nat → List EditOp → Prop
  | _, [] => True
  | sh, op :: rest =>
      (match op with
       | .ins p _ => p ≤ sh.length
       | .del p l => p + l ≤ sh.length
       | .saveReload => True) ∧ ValidOps (stepShadow sh op) rest

/-- The refinement invariant between the system and the shadow: the buffer
reads back exactly the shadow bytes, every piece is backed, and the buffer's
load-time original equals the current on-disk bytes. -/
def SysInv (s : SysState) (sh : List Nat) : Prop :=
  s.buf.content = sh ∧ s.buf.WF ∧ s.buf.original = s.disk

end Buffer

namespace Channel

/-- State of one streamed read request's data path: how many response chunks
the read task has delivered so far, the chunks sitting in the per-request
bounded channel, and the chunks the consumer has drained. -/
structure ChanState where
  sent : Nat
  buf : List (List Nat)
  recvd : List (List Nat)
deriving DecidableEq, Repr

/-- One scheduling opportunity of the read task
(`AgentChannel::handle_response`, channel.rs lines 168-191): the next data
chunk is delivered with `send().await`, which enqueues only when the bounded
channel has a free slot and otherwise blocks (leaving the state unchanged
until capacity appears) — it never drops the chunk. -/
def producerStep (cap : Nat) (chunks : List (List Nat)) (s : ChanState) : ChanState :=
  if s.sent < chunks.length ∧ s.buf.length < cap then
    { sent := s.sent + 1, buf := s.buf ++ [chunks.getD s.sent []], recvd := s.recvd }
  else s

/-- One scheduling opportunity of the consumer loop
(`AgentChannel::request_with_data`, channel.rs lines 291-318): `recv()` pops
the next chunk when one is buffered (an artificial consumer delay only
postpones these steps, which the schedule already quantifies over). -/
def consumerStep (s : ChanState) : ChanState :=
  match s.buf with
  | [] => s
  | c :: rest => { sent := s.sent, buf := rest, recvd := s.recvd ++ [c] }

/-- One step under a schedule entry: `true` runs the producer, `false` the
consumer. -/
def chanStep (cap : Nat) (chunks : List (List Nat)) (s : ChanState) (b : Bool) : ChanState :=
  if b then producerStep cap chunks s else consumerStep s

/-- Run an arbitrary interleaving of producer and consumer steps from the
empty channel. -/
def runChan (cap : Nat) (chunks : List (List Nat)) (sched : List Bool) : ChanState :=
  sched.foldl (chanStep cap chunks) ⟨0, [], []⟩

/-- The stream has fully drained: all chunks delivered and the channel empty
(the terminal result closes the data channel and `recv()` returns `None`). -/
def ChanComplete (chunks : List (List Nat)) (s : ChanState) : Prop :=
  s.sent = chunks.length ∧ s.buf = []

/-- Fuel-bounded chunking loop; each round consumes at least one byte, so
`l.length` units of fuel always suffice. -/
def chunksOfAux : Nat → Nat → List Nat → List (List Nat)
  | 0, _, l => if l = [] then [] else [l]
  | fuel + 1, sz, l =>
      if l = [] then []
      else if sz = 0 then [l]
      else l.take sz :: chunksOfAux fuel sz (l.drop sz)

/-- Modelled from the spec: the agent streams a file's bytes as consecutive
bounded chunks (65536 bytes each in the deployed agent; the size is kept
abstract here). -/
def chunksOf (sz : Nat) (l : List Nat) : List (List Nat) :=
  chunksOfAux l.length sz l

end Channel

namespace Unicode

/-- A UTF-8 continuation byte (`10xxxxxx`). -/
def isContByte (b : Nat) : Bool :=
  decide (0x80 ≤ b ∧ b < 0xC0)

/-- Standard UTF-8 encoding of one Unicode scalar value (1 to 4 bytes). -/
def utf8Encode (c : Nat) : List Nat :=
  if c < 0x80 then [c]
  else if c < 0x800 then [0xC0 + c / 0x40, 0x80 + c % 0x40]
  else if c < 0x10000 then
    [0xE0 + c / 0x1000, 0x80 + (c / 0x40) % 0x40, 0x80 + c % 0x40]
  else
    [0xF0 + c / 0x40000, 0x80 + (c / 0x1000) % 0x40, 0x80 + (c / 0x40) % 0x40, 0x80 + c % 0x40]

/-- UTF-8 bytes of a sequence of scalars (the document bytes). -/
def encodeAll (cs : List Nat) : List Nat :=
  (cs.map utf8Encode).flatten

/-- Modelled from the spec: combining marks (the code points a grapheme
cluster carries after its base character); covers the combining diacritics
block and the Thai combining vowel/tone marks exercised by the tests. -/
def isCombining (c : Nat) : Bool :=
  decide ((0x300 ≤ c ∧ c ≤ 0x36F) ∨ c = 0xE31 ∨ (0xE34 ≤ c ∧ c ≤ 0xE3A) ∨
    (0xE47 ≤ c ∧ c ≤ 0xE4E))

/-- Scan of the backspace handler over the reversed bytes before the cursor:
skip the trailing continuation bytes, then drop the leading byte of the last
scalar. -/
def dropLastScalarRev : List Nat → List Nat
  | [] => []
  | b :: rest => if isContByte b then dropLastScalarRev rest else rest

/-- Remove the last Unicode scalar's bytes from a byte string. -/
def dropLastScalar (l : List Nat) : List Nat :=
  (dropLastScalarRev l.reverse).reverse

/-- Modelled from the spec: one backspace keypress removes exactly the bytes
of the one Unicode scalar value that precedes the cursor. -/
def backspaceAt (l : List Nat) (cursor : Nat) : List Nat :=
  dropLastScalar (l.take cursor) ++ l.drop cursor

/-- Scalar value of a 2-byte UTF-8 sequence. -/
def dec2 (b r1 : Nat) : Nat :=
  (b - 0xC0) * 0x40 + (r1 - 0x80)

/-- Scalar value of a 3-byte UTF-8 sequence. -/
def dec3 (b r1 r2 : Nat) : Nat :=
  ((b - 0xE0) * 0x40 + (r1 - 0x80)) * 0x40 + (r2 - 0x80)

/-- Scalar value of a 4-byte UTF-8 sequence. -/
def dec4 (b r1 r2 r3 : Nat) : Nat :=
  (((b - 0xF0) * 0x40 + (r1 - 0x80)) * 0x40 + (r2 - 0x80)) * 0x40 + (r3 - 0x80)

/-- Decode the first scalar of a byte string; when it is a combining mark,
consume its bytes and return the remainder, else signal that the cluster has
ended. -/
def combiningStep (l : List Nat) : Option (List Nat) :=
  match l with
  | [] => none
  | b :: rest =>
      if b < 0x80 then
        if isCombining b then some rest else none
      else if b < 0xC0 then none
      else if b < 0xE0 then
        if isCombining (dec2 b (rest.getD 0 0)) then some (rest.drop 1) else none
      else if b < 0xF0 then
        if isCombining (dec3 b (rest.getD 0 0) (rest.getD 1 0)) then some (rest.drop 2) else none
      else
        if isCombining (dec4 b (rest.getD 0 0) (rest.getD 1 0) (rest.getD 2 0)) then
          some (rest.drop 3)
        else none

/-- Fuel-bounded loop consuming leading combining-mark scalars; every step
consumes at least one byte, so `l.length` units of fuel always suffice. -/
def dropCombiningAux : Nat → List Nat → List Nat
  | 0, l => l
  | fuel + 1, l =>
      match combiningStep l with
      | some rest => dropCombiningAux fuel rest
      | none => l

/-- Consume the bytes of every leading combining-mark scalar (the forward
delete keeps consuming marks so the whole grapheme cluster goes at once). -/
def dropCombining (l : List Nat) : List Nat :=
  dropCombiningAux l.length l

/-- Remove the bytes of the grapheme cluster that starts a byte string: the
first scalar's bytes, then every following combining-mark scalar's bytes. -/
def dropClusterBytes : List Nat → List Nat
  | [] => []
  | b :: rest =>
      if b < 0x80 then dropCombining rest
      else if b < 0xC0 then rest
      else if b < 0xE0 then dropCombining (rest.drop 1)
      else if b < 0xF0 then dropCombining (rest.drop 2)
      else dropCombining (rest.drop 3)

/-- Modelled from the spec: one forward-delete keypress removes the bytes of
the entire grapheme cluster that follows the cursor. -/
def deleteClusterAt (l : List Nat) (cursor : Nat) : List Nat :=
  l.take cursor ++ dropClusterBytes (l.drop cursor)

/-- Encoded byte length of a grapheme cluster (its scalars). -/
def bLen (cl : List Nat) : Nat :=
  (encodeAll cl).length

/-- Modelled from the spec: move right one grapheme cluster from byte offset
`p` (at the end of the content there is no step to take). -/
def moveRight : List (List Nat) → Nat → Option Nat
  | [], _ => none
  | c :: rest, p =>
      if p = 0 then some (bLen c) else (moveRight rest (p - bLen c)).map (· + bLen c)

/-- Modelled from the spec: move left one grapheme cluster from byte offset
`p` (at the start there is no step to take). -/
def moveLeft : List (List Nat) → Nat → Option Nat
  | [], _ => none
  | c :: rest, p =>
      if p = 0 then none
      else if p = bLen c then some 0
      else if p < bLen c then none
      else (moveLeft rest (p - bLen c)).map (· + bLen c)

/-- N grapheme steps to the right. -/
def moveRightN (cs : List (List Nat)) : Nat → Nat → Option Nat
  | 0, p => some p
  | n + 1, p => (moveRight cs p).bind (moveRightN cs n)

/-- N grapheme steps to the left. -/
def moveLeftN (cs : List (List Nat)) : Nat → Nat → Option Nat
  | 0, p => some p
  | n + 1, p => (moveLeftN cs n p).bind (moveLeft cs)

/-- A byte offset sitting on a grapheme-cluster boundary of the content. -/
def IsBoundary : List (List Nat) → Nat → Prop
  | [], p => p = 0
  | c :: rest, p => p = 0 ∨ (bLen c ≤ p ∧ IsBoundary rest (p - bLen c))

end Unicode

namespace Modified

/-- Modelled from the spec: the buffer state backing the modified flag — the
current content, the fingerprint recorded at the last successful save, and
the undo stack of earlier contents (the editor's undo granularity; each edit
pushes one entry).  The fingerprint function is the collision-free content
fingerprint `Recovery.compute_checksum`. -/
structure EditorBuf where
  content : List Nat
  savedFp : List Nat
  undoStack : List (List Nat)
deriving DecidableEq, Repr

/-- Editor operations the claim's scenario uses: insert, delete, a successful
save to file, and one undo step. -/
inductive EdOp where
  | ins (pos : Nat) (data : List Nat)
  | del (pos len : Nat)
  | save
  | undo
deriving DecidableEq, Repr

/-- Modelled from the spec: `is_modified` compares the current content's
fingerprint against the fingerprint recorded at the last successful save —
not a history position. -/
def is_modified (b : EditorBuf) : Bool :=
  Recovery.compute_checksum b.content != b.savedFp

/-- One editor operation: edits push the previous content on the undo stack,
save records the current fingerprint, undo restores the top of the stack. -/
def stepEd (b : EditorBuf) : EdOp → EditorBuf
  | .ins p d => ⟨Buffer.insertShadow b.content p d, b.savedFp, b.content :: b.undoStack⟩
  | .del p l => ⟨Buffer.deleteShadow b.content p l, b.savedFp, b.content :: b.undoStack⟩
  | .save => ⟨b.content, Recovery.compute_checksum b.content, b.undoStack⟩
  | .undo =>
      match b.undoStack with
      | [] => b
      | c :: rest => ⟨c, b.savedFp, rest⟩

/-- A freshly opened file-backed buffer is unmodified: its saved fingerprint
is the fingerprint of the file content. -/
def loadEd (file : List Nat) : EditorBuf :=
  ⟨file, Recovery.compute_checksum file, []⟩

/-- Run an editor script from a freshly opened file. -/
def runEd (file : List Nat) (script : List EdOp) : EditorBuf :=
  script.foldl stepEd (loadEd file)

/-- Stated from the claim's words: the reference state tracking the content
last saved to disk itself (no fingerprints), for comparison. -/
structure RefState where
  content : List Nat
  saved : List Nat
  stack : List (List Nat)
deriving DecidableEq, Repr

/-- Reference semantics: `save` records the content itself. -/
def stepRef (s : RefState) : EdOp → RefState
  | .ins p d => ⟨Buffer.insertShadow s.content p d, s.saved, s.content :: s.stack⟩
  | .del p l => ⟨Buffer.deleteShadow s.content p l, s.saved, s.content :: s.stack⟩
  | .save => ⟨s.content, s.content, s.stack⟩
  | .undo =>
      match s.stack with
      | [] => s
      | c :: rest => ⟨c, s.saved, rest⟩

/-- Run the reference semantics. -/
def runRef (file : List Nat) (script : List EdOp) : RefState :=
  script.foldl stepRef ⟨file, file, []⟩

end Modified

namespace Recovery

theorem drop_eq_nil_of_ge {l : List Nat} {n : Nat} (h : l.length ≤ n) : l.drop n = [] :=
  List.drop_eq_nil_of_le h

/-- The chunk loop, under ascending non-overlapping in-bounds verified chunks,
computes exactly the splice described by the spec's words. -/
theorem applyChunksLoop_eq_claimSplice (original : List Nat) (chunks : List RecoveryChunk)
    (pos : Nat) (acc : List Nat)
    (hord : ChunksOrdered pos chunks) (hbound : ChunksInBounds original.length chunks)
    (hver : ∀ c ∈ chunks, c.verify = true) (hpos : pos ≤ original.length) :
    applyChunksLoop original chunks pos acc =
      some (Except.ok (acc ++ claimSpliceGo original chunks pos)) := by
  induction chunks generalizing pos acc with
  | nil =>
    simp only [applyChunksLoop, claimSpliceGo]
    by_cases h : pos < original.length
    · simp [h]
    · have hnil : original.drop pos = [] := drop_eq_nil_of_ge (by omega)
      simp [h, hnil]
  | cons c rest ih =>
    obtain ⟨h1, h2⟩ := hord
    have hcb : c.offset + c.original_len ≤ original.length := hbound c (by simp)
    have hv : c.verify = true := hver c (by simp)
    have hslice : (if pos < c.offset then sliceRange original pos c.offset else some []) =
        some ((original.drop pos).take (c.offset - pos)) := by
      by_cases h : pos < c.offset
      · simp only [h, if_true, sliceRange]
        rw [if_pos ⟨by omega, by omega⟩]
      · have : c.offset - pos = 0 := by omega
        simp [h, this]
    simp only [applyChunksLoop, hv, Bool.true_eq_false, if_false, hslice]
    rw [ih (c.offset + c.original_len) _ h2
      (fun d hd => hbound d (by simp [hd])) (fun d hd => hver d (by simp [hd])) (by omega)]
    simp [claimSpliceGo, List.append_assoc]

/-- Length of the splice: original length minus replaced bytes plus
replacement bytes. -/
theorem claimSpliceGo_length (original : List Nat) (chunks : List RecoveryChunk) (pos : Nat)
    (hord : ChunksOrdered pos chunks) (hbound : ChunksInBounds original.length chunks)
    (hpos : pos ≤ original.length) :
    (claimSpliceGo original chunks pos).length + pos + sumOriginalLen chunks
      = original.length + sumContentLen chunks := by
  induction chunks generalizing pos with
  | nil =>
    simp [claimSpliceGo, sumOriginalLen, sumContentLen]
    omega
  | cons c rest ih =>
    obtain ⟨h1, h2⟩ := hord
    have hcb : c.offset + c.original_len ≤ original.length := hbound c (by simp)
    have hrec := ih (c.offset + c.original_len) h2
      (fun d hd => hbound d (by simp [hd])) (by omega)
    simp only [claimSpliceGo, List.length_append, List.length_take, List.length_drop,
      sumOriginalLen, sumContentLen, List.map_cons, List.sum_cons] at *
    omega

/-- The chunk loop never panics when every chunk's replaced range is in
bounds and the chunks are ascending and non-overlapping. -/
theorem applyChunksLoop_isSome (original : List Nat) (chunks : List RecoveryChunk)
    (pos : Nat) (acc : List Nat)
    (hord : ChunksOrdered pos chunks) (hbound : ChunksInBounds original.length chunks)
    (hpos : pos ≤ original.length) :
    (applyChunksLoop original chunks pos acc).isSome = true := by
  induction chunks generalizing pos acc with
  | nil => simp [applyChunksLoop]
  | cons c rest ih =>
    obtain ⟨h1, h2⟩ := hord
    have hcb : c.offset + c.original_len ≤ original.length := hbound c (by simp)
    by_cases hv : c.verify = false
    · simp [applyChunksLoop, hv]
    · have hslice : (if pos < c.offset then sliceRange original pos c.offset else some []) =
          some ((original.drop pos).take (c.offset - pos)) := by
        by_cases h : pos < c.offset
        · simp only [h, if_true, sliceRange]
          rw [if_pos ⟨by omega, by omega⟩]
        · have : c.offset - pos = 0 := by omega
          simp [h, this]
      simp only [applyChunksLoop, hv, if_false, hslice]
      exact ih (c.offset + c.original_len) _ h2
        (fun d hd => hbound d (by simp [hd])) (by omega)

end Recovery

namespace Recovery

/-- C3: given a stored `ChunkedRecoveryData` and an original file whose size
equals the recorded `original_size`, `reconstruct_from_chunks` produces, for
each chunk in ascending offset order, the untouched original bytes before the
chunk's offset, then the chunk's replacement content, skipping `original_len`
bytes of the original, and finally the untouched original suffix; in
particular the three concrete reconstructions of the e2e recovery tests:
"Hello, Universe! This is a sample file with some content.", "AXYZB", and
"Held". -/
theorem reconstruct_from_chunks_correct :
    (∀ (data : ChunkedRecoveryData) (original : List Nat),
        original.length = data.original_size →
        ChunksOrdered 0 data.chunks →
        ChunksInBounds data.original_size data.chunks →
        (∀ c ∈ data.chunks, c.verify = true) →
        reconstruct_from_chunks data original =
          some (Except.ok (claimSplice original data.chunks))) ∧
    reconstruct_from_chunks helloData helloOriginal =
      some (Except.ok
        (strBytes "Hello, Universe! This is a sample file with some content.")) ∧
    reconstruct_from_chunks insertData (strBytes "AB") =
      some (Except.ok (strBytes "AXYZB")) ∧
    reconstruct_from_chunks deleteData (strBytes "Hello World") =
      some (Except.ok (strBytes "Held")) := by
  refine ⟨?_, rfl, rfl, rfl⟩
  intro data original hlen hord hbound hver
  unfold reconstruct_from_chunks
  rw [if_neg (by omega)]
  exact applyChunksLoop_eq_claimSplice original data.chunks 0 [] hord (by rwa [hlen]) hver
    (by omega)

/-- Witness for C3: the general refinement applied to the concrete data of
`test_chunked_recovery_reconstruction`, with every hypothesis discharged. -/
theorem reconstruct_from_chunks_correct_witness :
    (helloOriginal.length = helloData.original_size ∧
     ChunksOrdered 0 helloData.chunks ∧
     ChunksInBounds helloData.original_size helloData.chunks ∧
     (∀ c ∈ helloData.chunks, c.verify = true)) ∧
    reconstruct_from_chunks helloData helloOriginal =
      some (Except.ok (claimSplice helloOriginal helloData.chunks)) := by
  have h1 : helloOriginal.length = helloData.original_size := by decide
  have h2 : ChunksOrdered 0 helloData.chunks := by
    simp [helloData, helloChunks, ChunksOrdered, RecoveryChunk.new]
  have h3 : ChunksInBounds helloData.original_size helloData.chunks := by
    simp [helloData, helloChunks, ChunksInBounds, RecoveryChunk.new, strBytes]
  have h4 : ∀ c ∈ helloData.chunks, c.verify = true := by
    simp [helloData, helloChunks, RecoveryChunk.new, RecoveryChunk.verify]
  exact ⟨⟨h1, h2, h3, h4⟩,
    reconstruct_from_chunks_correct.1 helloData helloOriginal h1 h2 h3 h4⟩

/-- C4: whenever `reconstruct_from_chunks` is called with an original file
whose byte length differs from the recorded `original_size`, it returns the
distinguishable size-mismatch error, and no chunk is applied. -/
theorem reconstruct_from_chunks_size_mismatch (data : ChunkedRecoveryData)
    (original : List Nat) (h : original.length ≠ data.original_size) :
    reconstruct_from_chunks data original =
      some (Except.error (RecoveryError.sizeMismatch data.original_size original.length)) := by
  simp [reconstruct_from_chunks, h]

/-- Witness for C4: the concrete scenario of
`test_chunked_recovery_size_mismatch` (recorded size 100, actual file
"Short"). -/
theorem reconstruct_from_chunks_size_mismatch_witness :
    (strBytes "Short").length ≠ mismatchData.original_size ∧
    reconstruct_from_chunks mismatchData (strBytes "Short") =
      some (Except.error
        (RecoveryError.sizeMismatch mismatchData.original_size (strBytes "Short").length)) :=
  ⟨by decide, reconstruct_from_chunks_size_mismatch mismatchData (strBytes "Short") (by decide)⟩

/-- Counterexample to C5 as stated: a `ChunkedRecoveryData` whose recorded
`final_size` is 1 while its chunk list is empty and its original is empty;
reconstruction succeeds with 0 bytes, not `final_size` bytes.  Nothing in the
code validates the recorded `final_size`. -/
theorem reconstruct_final_size_cex :
    reconstruct_from_chunks ⟨0, [], 1⟩ [] = some (Except.ok ([] : List Nat)) ∧
    ([] : List Nat).length ≠ (ChunkedRecoveryData.mk 0 [] 1).final_size :=
  ⟨rfl, by decide⟩

/-- C5 (amended): for every `ChunkedRecoveryData` whose chunks are ascending,
non-overlapping, in bounds and checksum-valid, and whose recorded `final_size`
is consistent with the chunks (`final_size` + replaced bytes = `original_size`
+ replacement bytes), applying all chunks to a file of exactly `original_size`
bytes succeeds and yields exactly `final_size` bytes. -/
theorem reconstruct_length_matches_final_size (data : ChunkedRecoveryData)
    (original : List Nat)
    (hlen : original.length = data.original_size)
    (hord : ChunksOrdered 0 data.chunks)
    (hbound : ChunksInBounds data.original_size data.chunks)
    (hver : ∀ c ∈ data.chunks, c.verify = true)
    (hfinal : data.final_size + sumOriginalLen data.chunks
        = data.original_size + sumContentLen data.chunks) :
    reconstruct_from_chunks data original =
      some (Except.ok (claimSplice original data.chunks)) ∧
    (claimSplice original data.chunks).length = data.final_size := by
  constructor
  · unfold reconstruct_from_chunks
    rw [if_neg (by omega)]
    exact applyChunksLoop_eq_claimSplice original data.chunks 0 [] hord (by rwa [hlen]) hver
      (by omega)
  · have h := claimSpliceGo_length original data.chunks 0 hord (by rwa [hlen]) (by omega)
    unfold claimSplice
    omega

/-- Witness for C5 (amended): the concrete data of
`test_chunked_recovery_reconstruction` satisfies every hypothesis and the
reconstruction has exactly `final_size` = 57 bytes. -/
theorem reconstruct_length_matches_final_size_witness :
    (helloOriginal.length = helloData.original_size ∧
     ChunksOrdered 0 helloData.chunks ∧
     ChunksInBounds helloData.original_size helloData.chunks ∧
     (∀ c ∈ helloData.chunks, c.verify = true) ∧
     helloData.final_size + sumOriginalLen helloData.chunks
       = helloData.original_size + sumContentLen helloData.chunks) ∧
    (claimSplice helloOriginal helloData.chunks).length = helloData.final_size := by
  have h1 : helloOriginal.length = helloData.original_size := by decide
  have h2 : ChunksOrdered 0 helloData.chunks := by
    simp [helloData, helloChunks, ChunksOrdered, RecoveryChunk.new]
  have h3 : ChunksInBounds helloData.original_size helloData.chunks := by
    simp [helloData, helloChunks, ChunksInBounds, RecoveryChunk.new, strBytes]
  have h4 : ∀ c ∈ helloData.chunks, c.verify = true := by
    simp [helloData, helloChunks, RecoveryChunk.new, RecoveryChunk.verify]
  have h5 : helloData.final_size + sumOriginalLen helloData.chunks
      = helloData.original_size + sumContentLen helloData.chunks := by decide
  exact ⟨⟨h1, h2, h3, h4, h5⟩,
    (reconstruct_length_matches_final_size helloData helloOriginal h1 h2 h3 h4 h5).2⟩

/-- C10: with chunks sorted in ascending offset order, pairwise
non-overlapping, and each replaced range inside `original_size`, and an
original of exactly `original_size` bytes, every slice taken by
`reconstruct_from_chunks` is in bounds, so the function totally returns a
result (the panic case of the model never occurs). -/
theorem reconstruct_from_chunks_no_panic (data : ChunkedRecoveryData)
    (original : List Nat)
    (hlen : original.length = data.original_size)
    (hord : ChunksOrdered 0 data.chunks)
    (hbound : ∀ c ∈ data.chunks, c.offset + c.original_len ≤ data.original_size) :
    (reconstruct_from_chunks data original).isSome = true := by
  unfold reconstruct_from_chunks
  rw [if_neg (by omega)]
  exact applyChunksLoop_isSome original data.chunks 0 [] hord (by rwa [hlen]) (by omega)

/-- Witness for C10: the deletion scenario (`test_chunked_recovery_with_deletion`)
satisfies the hypotheses and the call returns a value. -/
theorem reconstruct_from_chunks_no_panic_witness :
    ((strBytes "Hello World").length = deleteData.original_size ∧
     ChunksOrdered 0 deleteData.chunks ∧
     (∀ c ∈ deleteData.chunks, c.offset + c.original_len ≤ deleteData.original_size)) ∧
    (reconstruct_from_chunks deleteData (strBytes "Hello World")).isSome = true := by
  have h1 : (strBytes "Hello World").length = deleteData.original_size := by decide
  have h2 : ChunksOrdered 0 deleteData.chunks := by
    simp [deleteData, ChunksOrdered, RecoveryChunk.new]
  have h3 : ∀ c ∈ deleteData.chunks, c.offset + c.original_len ≤ deleteData.original_size := by
    simp [deleteData, RecoveryChunk.new]
  exact ⟨⟨h1, h2, h3⟩, reconstruct_from_chunks_no_panic deleteData (strBytes "Hello World") h1 h2 h3⟩

end Recovery

namespace Cleanup

theorem endsWith_iff {n s : List Char} :
    endsWithStr n s = true ↔ s.length ≤ n.length ∧ n.drop (n.length - s.length) = s := by
  simp [endsWithStr]

theorem stripOnce_append (x s : List Char) : stripOnce (x ++ s) s = x := by
  simp only [stripOnce, List.length_append]
  have : x.length + s.length - s.length = x.length := by omega
  rw [this, List.take_left]

theorem endsWith_append (x s : List Char) : endsWithStr (x ++ s) s = true := by
  rw [endsWith_iff]
  constructor
  · simp
  · have : (x ++ s).length - s.length = x.length := by simp
    rw [this, List.drop_left]

theorem stripOnce_append_self {n s : List Char} (h : endsWithStr n s = true) :
    stripOnce n s ++ s = n := by
  rw [endsWith_iff] at h
  calc stripOnce n s ++ s = n.take (n.length - s.length) ++ n.drop (n.length - s.length) := by
        rw [stripOnce, h.2]
    _ = n := List.take_append_drop _ n

theorem not_endsWith_both {n : List Char} (hm : endsWithStr n metaSuffix = true)
    (hc : endsWithStr n contentSuffix = true) : False := by
  rw [endsWith_iff] at hm hc
  have hlm : metaSuffix.length = 10 := by decide
  have hlc : contentSuffix.length = 8 := by decide
  rw [hlm] at hm
  rw [hlc] at hc
  have h2 : n.drop (n.length - 8) = (n.drop (n.length - 10)).drop 2 := by
    rw [List.drop_drop]
    congr 1
    omega
  rw [hm.2] at h2
  rw [hc.2] at h2
  revert h2
  decide

theorem trimEndAux_no_suffix {s m : List Char} (h : endsWithStr m s = false) :
    ∀ fuel, trimEndAux fuel m s = m := by
  intro fuel
  cases fuel with
  | zero => rfl
  | succ k => simp [trimEndAux, h]

theorem trim_eq_stripOnce {n s : List Char} (hs : s ≠ [])
    (h1 : endsWithStr n s = true) (h2 : endsWithStr (stripOnce n s) s = false) :
    trimEndMatches n s = stripOnce n s := by
  have hlen : 1 ≤ n.length := by
    rw [endsWith_iff] at h1
    have := List.length_pos.mpr hs
    omega
  obtain ⟨k, hk⟩ : ∃ k, n.length = k + 1 := ⟨n.length - 1, by omega⟩
  rw [trimEndMatches, hk]
  simp only [trimEndAux, hs, h1, and_true, ne_eq, not_false_eq_true, if_true]
  exact trimEndAux_no_suffix h2 k

theorem surviving_append_of_not_orphan {dir : List (List Char)} (done : List (List Char))
    {n : List Char} (ho : isOrphanFile dir n = false) :
    surviving dir (done ++ [n]) = surviving dir done := by
  apply List.filter_congr
  intro m _
  by_cases hmn : m = n
  · subst hmn
    simp [ho]
  · simp [List.mem_append, hmn]

theorem mem_surviving_of_not_orphan {dir : List (List Char)} {done : List (List Char)}
    {m : List Char} (hmem : m ∈ dir) (ho : isOrphanFile dir m = false) :
    m ∈ surviving dir done := by
  rw [surviving, List.mem_filter]
  exact ⟨hmem, by simp [ho]⟩

theorem not_mem_surviving {dir done : List (List Char)} {q : List Char} (hq : q ∉ dir) :
    q ∉ surviving dir done := by
  intro hmem
  exact hq (List.filter_subset' _ hmem)

theorem removeFile_of_not_mem {files : List (List Char)} {q : List Char}
    (h : ∀ x ∈ files, x ≠ q) : removeFile files q = files := by
  apply List.filter_eq_self.mpr
  intro x hx
  simpa using h x hx

/-- Removing the orphaned file `n` from the surviving directory advances the
invariant by one processed entry. -/
theorem removeFile_surviving {dir : List (List Char)} (done : List (List Char))
    {n : List Char} (ho : isOrphanFile dir n = true) :
    removeFile (surviving dir done) n = surviving dir (done ++ [n]) := by
  rw [removeFile, surviving, List.filter_filter, surviving]
  apply List.filter_congr
  intro m _
  by_cases hmn : m = n
  · subst hmn
    simp [ho, List.mem_append]
  · simp [List.mem_append, hmn, bne_iff_ne]

theorem cleanup_step_spec (dir : List (List Char)) (hclean : ∀ n ∈ dir, CleanName n)
    (done : List (List Char)) (n : List Char) (hn_dir : n ∈ dir) (c : Nat) :
    cleanup_orphans_step (c, surviving dir done) n =
      ((if isOrphanFile dir n then c + 1 else c), surviving dir (done ++ [n])) := by
  by_cases hlock : n = sessionLock
  · subst hlock
    have ho : isOrphanFile dir sessionLock = false := by simp [isOrphanFile]
    rw [surviving_append_of_not_orphan done ho]
    simp [cleanup_orphans_step, ho]
  · by_cases hm : endsWithStr n metaSuffix = true
    · -- meta-suffix branch
      have hid : trimEndMatches n metaSuffix = stripOnce n metaSuffix :=
        trim_eq_stripOnce (by decide) hm ((hclean n hn_dir).1 hm)
      set q := stripOnce n metaSuffix ++ contentSuffix with hq_def
      have hmeta_path : stripOnce n metaSuffix ++ metaSuffix = n := stripOnce_append_self hm
      have hpartner : pairPartner n = some q := by
        rw [pairPartner, if_pos hm]
      have ho_iff : isOrphanFile dir n = !(decide (q ∈ dir)) := by
        simp [isOrphanFile, hpartner, hlock]
      rw [cleanup_orphans_step, if_neg hlock, if_pos hm, hid, stepPair, hmeta_path]
      by_cases hq : q ∈ dir
      · -- complete pair: untouched
        have ho : isOrphanFile dir n = false := by simp [ho_iff, hq]
        have hqc : endsWithStr q contentSuffix = true := endsWith_append _ _
        have hqm : ¬ (endsWithStr q metaSuffix = true) := fun h => not_endsWith_both h hqc
        have hpq : pairPartner q = some n := by
          rw [pairPartner, if_neg hqm, if_pos hqc, hq_def, stripOnce_append, hmeta_path]
        have hoq : isOrphanFile dir q = false := by
          simp [isOrphanFile, hpq, hn_dir]
        rw [if_neg (by
          push_neg
          exact ⟨mem_surviving_of_not_orphan hn_dir ho, mem_surviving_of_not_orphan hq hoq⟩)]
        rw [surviving_append_of_not_orphan done ho, ho]
        simp
      · -- orphaned id: remove the present file, count one
        have ho : isOrphanFile dir n = true := by simp [ho_iff, hq]
        rw [if_pos (Or.inr (not_mem_surviving hq)), ho]
        simp only [if_true]
        congr 1
        have hq_gone : removeFile (removeFile (surviving dir done) n) q
            = removeFile (surviving dir done) n := by
          apply removeFile_of_not_mem
          intro x hx hxq
          exact hq (hxq ▸ List.filter_subset' _ (List.filter_subset' _ hx))
        rw [hq_gone, removeFile_surviving done ho]
    · by_cases hc : endsWithStr n contentSuffix = true
      · -- content-suffix branch
        have hid : trimEndMatches n contentSuffix = stripOnce n contentSuffix :=
          trim_eq_stripOnce (by decide) hc ((hclean n hn_dir).2 hc)
        set q := stripOnce n contentSuffix ++ metaSuffix with hq_def
        have hcontent_path : stripOnce n contentSuffix ++ contentSuffix = n :=
          stripOnce_append_self hc
        have hpartner : pairPartner n = some q := by
          rw [pairPartner, if_neg hm, if_pos hc]
        have ho_iff : isOrphanFile dir n = !(decide (q ∈ dir)) := by
          simp [isOrphanFile, hpartner, hlock]
        rw [cleanup_orphans_step, if_neg hlock, if_neg hm, if_pos hc, hid, stepPair,
          hcontent_path]
        by_cases hq : q ∈ dir
        · have ho : isOrphanFile dir n = false := by simp [ho_iff, hq]
          have hqm : endsWithStr q metaSuffix = true := endsWith_append _ _
          have hpq : pairPartner q = some n := by
            rw [pairPartner, if_pos hqm, hq_def, stripOnce_append, hcontent_path]
          have hoq : isOrphanFile dir q = false := by
            simp [isOrphanFile, hpq, hn_dir]
          rw [if_neg (by
            push_neg
            exact ⟨mem_surviving_of_not_orphan hq hoq, mem_surviving_of_not_orphan hn_dir ho⟩)]
          rw [surviving_append_of_not_orphan done ho, ho]
          simp
        · have ho : isOrphanFile dir n = true := by simp [ho_iff, hq]
          rw [if_pos (Or.inl (not_mem_surviving hq)), ho]
          simp only [if_true]
          congr 1
          have hq_first : removeFile (surviving dir done) q = surviving dir done := by
            apply removeFile_of_not_mem
            intro x hx hxq
            exact hq (hxq ▸ List.filter_subset' _ hx)
          rw [hq_first, removeFile_surviving done ho]
      · -- no recognized extension
        have ho : isOrphanFile dir n = false := by
          simp [isOrphanFile, pairPartner, hm, hc]
        rw [cleanup_orphans_step, if_neg hlock, if_neg hm, if_neg hc,
          surviving_append_of_not_orphan done ho, ho]
        simp

end Cleanup

namespace Cleanup

theorem cleanup_fold_spec (dir : List (List Char)) (hclean : ∀ n ∈ dir, CleanName n) :
    ∀ (todo done : List (List Char)), dir = done ++ todo → ∀ c : Nat,
      todo.foldl cleanup_orphans_step (c, surviving dir done) =
        (c + (todo.filter (fun n => isOrphanFile dir n)).length, surviving dir (done ++ todo)) := by
  intro todo
  induction todo with
  | nil =>
    intro done _ c
    simp
  | cons n todo' ih =>
    intro done hsplit c
    have hn_dir : n ∈ dir := by
      rw [hsplit]
      exact List.mem_append_right _ (List.mem_cons_self _ _)
    rw [List.foldl_cons, cleanup_step_spec dir hclean done n hn_dir c,
      ih (done ++ [n]) (by rw [hsplit]; simp) _]
    have hassoc : done ++ [n] ++ todo' = done ++ n :: todo' := by simp
    rw [hassoc, List.filter_cons]
    by_cases ho : isOrphanFile dir n = true
    · simp [ho]
      omega
    · simp at ho
      simp [ho]

theorem surviving_nil (dir : List (List Char)) : surviving dir [] = dir := by
  apply List.filter_eq_self.mpr
  intro m _
  simp

theorem surviving_self (dir : List (List Char)) :
    surviving dir dir = dir.filter (fun n => !(isOrphanFile dir n)) := by
  apply List.filter_congr
  intro m hm
  simp [hm]

/-- C9 (amended): on a directory whose names are suffix-clean (no name carries
a doubled `.meta.json` or `.content` extension; true of every name the storage
creates), `cleanup_orphans` removes exactly the recovery-pair files whose
partner file is missing, counting one cleanup per orphaned pair, and never
removes the session lock or any file of a complete metadata/content pair. -/
theorem cleanup_orphans_exact (dir : List (List Char)) (hclean : ∀ n ∈ dir, CleanName n) :
    cleanup_orphans dir =
      ((dir.filter (fun n => isOrphanFile dir n)).length,
       dir.filter (fun n => !(isOrphanFile dir n))) := by
  have h := cleanup_fold_spec dir hclean dir [] rfl 0
  rw [surviving_nil] at h
  rw [cleanup_orphans, h, List.nil_append, surviving_self]
  simp

/-- Witness for C9 (amended): a directory holding an orphaned content file, a
complete pair, and the session lock; cleanup removes exactly the orphan and
counts 1. -/
theorem cleanup_orphans_exact_witness :
    (∀ n ∈ [("orphan.content").toList, ("complete.meta.json").toList,
        ("complete.content").toList, ("session.lock").toList], CleanName n) ∧
    cleanup_orphans [("orphan.content").toList, ("complete.meta.json").toList,
        ("complete.content").toList, ("session.lock").toList] =
      (1, [("complete.meta.json").toList, ("complete.content").toList,
        ("session.lock").toList]) := by
  have hcl : ∀ n ∈ [("orphan.content").toList, ("complete.meta.json").toList,
      ("complete.content").toList, ("session.lock").toList], CleanName n := by
    intro n hn
    fin_cases hn <;> exact ⟨by decide, by decide⟩
  refine ⟨hcl, ?_⟩
  rw [cleanup_orphans_exact _ hcl]
  decide

/-- Counterexample to C9 as stated: in a directory holding the single file
"a.meta.json.meta.json" — a metadata file for id "a.meta.json" whose content
file is absent, hence an orphaned pair file that the claim says is removed —
`cleanup_orphans` removes nothing (Rust's `trim_end_matches` strips the
extension repeatedly, deriving id "a" and probing the wrong pair paths),
while still reporting one cleanup. -/
theorem cleanup_orphans_cex :
    (cleanup_orphans [("a.meta.json.meta.json").toList]).2
        = [("a.meta.json.meta.json").toList] ∧
    isOrphanFile [("a.meta.json.meta.json").toList] (("a.meta.json.meta.json").toList)
        = true ∧
    [("a.meta.json.meta.json").toList].filter
        (fun n => !(isOrphanFile [("a.meta.json.meta.json").toList] n)) = [] :=
  ⟨by decide, by decide, by decide⟩

end Cleanup

namespace Buffer

theorem contentOf_append (o a : List Nat) (ps qs : List Piece) :
    contentOf o a (ps ++ qs) = contentOf o a ps ++ contentOf o a qs := by
  simp [contentOf]

theorem contentOf_cons (o a : List Nat) (p : Piece) (ps : List Piece) :
    contentOf o a (p :: ps) = resolve o a p ++ contentOf o a ps := by
  simp [contentOf]

theorem resolve_added_extend {orig add : List Nat} (d : List Nat) {p : Piece}
    (h : PieceWF orig add p) :
    resolve orig (add ++ d) p = resolve orig add p := by
  cases p with
  | original o l => rfl
  | added o l =>
    simp only [PieceWF] at h
    simp only [resolve]
    rw [List.drop_append_of_le_length (by omega),
        List.take_append_of_le_length (by simp [List.length_drop]; omega)]

theorem contentOf_added_extend {orig add : List Nat} {ps : List Piece} (d : List Nat)
    (h : ∀ p ∈ ps, PieceWF orig add p) :
    contentOf orig (add ++ d) ps = contentOf orig add ps := by
  induction ps with
  | nil => rfl
  | cons p rest ih =>
    rw [contentOf_cons, contentOf_cons, resolve_added_extend d (h p (by simp)),
      ih (fun q hq => h q (by simp [hq]))]

theorem resolve_length {orig add : List Nat} {p : Piece} (h : PieceWF orig add p) :
    (resolve orig add p).length = p.len := by
  cases p with
  | original o l =>
    simp only [PieceWF] at h
    simp [resolve, Piece.len]
    omega
  | added o l =>
    simp only [PieceWF] at h
    simp [resolve, Piece.len]
    omega

theorem contentOf_length {orig add : List Nat} {ps : List Piece}
    (h : ∀ p ∈ ps, PieceWF orig add p) :
    (contentOf orig add ps).length = totalLen ps := by
  induction ps with
  | nil => rfl
  | cons p rest ih =>
    rw [contentOf_cons, List.length_append, resolve_length (h p (by simp)),
      ih (fun q hq => h q (by simp [hq]))]
    simp [totalLen]

theorem resolve_take_drop (o a : List Nat) (p : Piece) (k : Nat) (hk : k ≤ p.len) :
    resolve o a (pieceTake p k) ++ resolve o a (pieceDrop p k) = resolve o a p := by
  cases p with
  | original po l =>
    simp only [Piece.len] at hk
    simp only [resolve, pieceTake, pieceDrop]
    rw [← List.drop_drop, ← List.take_add]
    congr 1
    omega
  | added po l =>
    simp only [Piece.len] at hk
    simp only [resolve, pieceTake, pieceDrop]
    rw [← List.drop_drop, ← List.take_add]
    congr 1
    omega

theorem split_join (o a : List Nat) (ps : List Piece) (pos : Nat) :
    contentOf o a (splitPieces ps pos).1 ++ contentOf o a (splitPieces ps pos).2
      = contentOf o a ps := by
  induction ps generalizing pos with
  | nil => cases pos <;> simp [splitPieces, contentOf]
  | cons p rest ih =>
    cases pos with
    | zero => simp [splitPieces, contentOf]
    | succ k =>
      simp only [splitPieces]
      by_cases h : p.len ≤ k + 1
      · simp only [h, if_true]
        rw [contentOf_cons, contentOf_cons, List.append_assoc, ih (k + 1 - p.len)]
      · simp only [h, if_false]
        rw [contentOf_cons, contentOf_cons, contentOf_cons]
        rw [contentOf, List.map_nil, List.flatten_nil, List.append_nil, ← List.append_assoc,
          resolve_take_drop o a p (k + 1) (by omega)]

theorem pieceTake_WF {orig add : List Nat} {p : Piece} (h : PieceWF orig add p) {k : Nat}
    (hk : k ≤ p.len) : PieceWF orig add (pieceTake p k) := by
  cases p with
  | original o l =>
    simp only [PieceWF, Piece.len, pieceTake] at *
    omega
  | added o l =>
    simp only [PieceWF, Piece.len, pieceTake] at *
    omega

theorem pieceDrop_WF {orig add : List Nat} {p : Piece} (h : PieceWF orig add p) {k : Nat}
    (hk : k ≤ p.len) : PieceWF orig add (pieceDrop p k) := by
  cases p with
  | original o l =>
    simp only [PieceWF, Piece.len, pieceDrop] at *
    omega
  | added o l =>
    simp only [PieceWF, Piece.len, pieceDrop] at *
    omega

theorem split_WF {orig add : List Nat} {ps : List Piece}
    (h : ∀ p ∈ ps, PieceWF orig add p) (pos : Nat) :
    (∀ p ∈ (splitPieces ps pos).1, PieceWF orig add p) ∧
    (∀ p ∈ (splitPieces ps pos).2, PieceWF orig add p) := by
  induction ps generalizing pos with
  | nil =>
    cases pos <;> simp [splitPieces]
  | cons p rest ih =>
    cases pos with
    | zero =>
      refine ⟨by simp [splitPieces], ?_⟩
      simpa [splitPieces] using h
    | succ k =>
      simp only [splitPieces]
      by_cases hle : p.len ≤ k + 1
      · simp only [hle, if_true]
        obtain ⟨ih1, ih2⟩ := ih (fun q hq => h q (by simp [hq])) (k + 1 - p.len)
        refine ⟨?_, ih2⟩
        intro q hq
        rcases List.mem_cons.mp hq with rfl | hq
        · exact h q (by simp)
        · exact ih1 q hq
      · simp only [hle, if_false]
        refine ⟨?_, ?_⟩
        · intro q hq
          rcases List.mem_cons.mp hq with rfl | hq
          · exact pieceTake_WF (h p (by simp)) (by omega)
          · simp at hq
        · intro q hq
          rcases List.mem_cons.mp hq with rfl | hq
          · exact pieceDrop_WF (h p (by simp)) (by omega)
          · exact h q (by simp [hq])

theorem split_left_length {orig add : List Nat} {ps : List Piece}
    (h : ∀ p ∈ ps, PieceWF orig add p) {pos : Nat} (hpos : pos ≤ totalLen ps) :
    (contentOf orig add (splitPieces ps pos).1).length = pos := by
  induction ps generalizing pos with
  | nil =>
    simp [totalLen] at hpos
    subst hpos
    simp [splitPieces, contentOf]
  | cons p rest ih =>
    cases pos with
    | zero => simp [splitPieces, contentOf]
    | succ k =>
      simp only [splitPieces]
      by_cases hle : p.len ≤ k + 1
      · simp only [hle, if_true]
        rw [contentOf_cons, List.length_append, resolve_length (h p (by simp)),
          ih (fun q hq => h q (by simp [hq])) (by simp [totalLen] at hpos ⊢; omega)]
        omega
      · simp only [hle, if_false]
        rw [contentOf_cons, List.length_append]
        have : (contentOf orig add []).length = 0 := rfl
        rw [this, resolve_length (pieceTake_WF (h p (by simp)) (by omega))]
        cases p <;> simp [pieceTake, Piece.len]

theorem split_content {orig add : List Nat} {ps : List Piece}
    (h : ∀ p ∈ ps, PieceWF orig add p) {pos : Nat} (hpos : pos ≤ totalLen ps) :
    contentOf orig add (splitPieces ps pos).1 = (contentOf orig add ps).take pos ∧
    contentOf orig add (splitPieces ps pos).2 = (contentOf orig add ps).drop pos := by
  have hj := split_join orig add ps pos
  have hl := split_left_length h hpos
  constructor
  · rw [← hj, List.take_left' hl]
  · rw [← hj, List.drop_left' hl]

theorem PieceWF_added_extend {orig add : List Nat} (d : List Nat) {p : Piece}
    (h : PieceWF orig add p) : PieceWF orig (add ++ d) p := by
  cases p with
  | original o l => exact h
  | added o l =>
    simp only [PieceWF, List.length_append] at *
    omega

theorem insert_bytes_spec {tb : TextBuffer} (hwf : tb.WF) (pos : Nat) (data : List Nat)
    (hpos : pos ≤ tb.content.length) :
    (insert_bytes tb pos data).content = insertShadow tb.content pos data ∧
    (insert_bytes tb pos data).WF ∧
    (insert_bytes tb pos data).original = tb.original := by
  by_cases hd : data.isEmpty
  · have heq : insert_bytes tb pos data = tb := by
      rw [insert_bytes]
      simp [hd]
    have hdata : data = [] := by simpa using hd
    subst hdata
    rw [heq]
    refine ⟨?_, hwf, rfl⟩
    rw [insertShadow, List.append_nil]
    exact (List.take_append_drop pos tb.content).symm
  · have hpos' : pos ≤ totalLen tb.pieces := by
      rw [← contentOf_length hwf]
      exact hpos
    obtain ⟨hs1, hs2⟩ := split_content hwf hpos'
    obtain ⟨hw1, hw2⟩ := split_WF hwf pos
    rw [insert_bytes, if_neg hd]
    refine ⟨?_, ?_, rfl⟩
    · show contentOf tb.original (tb.added ++ data)
        ((splitPieces tb.pieces pos).1 ++
          (Piece.added tb.added.length data.length :: (splitPieces tb.pieces pos).2))
        = insertShadow tb.content pos data
      rw [contentOf_append, contentOf_cons]
      rw [contentOf_added_extend data hw1, contentOf_added_extend data hw2]
      have hnew : resolve tb.original (tb.added ++ data)
          (Piece.added tb.added.length data.length) = data := by
        simp only [resolve]
        rw [List.drop_left, List.take_length]
      rw [hnew, hs1, hs2, insertShadow, TextBuffer.content, List.append_assoc]
    · intro p hp
      simp only [List.mem_append, List.mem_cons] at hp
      rcases hp with hp | hp | hp
      · exact PieceWF_added_extend data (hw1 p hp)
      · subst hp
        simp [PieceWF]
      · exact PieceWF_added_extend data (hw2 p hp)

theorem delete_bytes_spec {tb : TextBuffer} (hwf : tb.WF) (pos len : Nat)
    (hpos : pos + len ≤ tb.content.length) :
    (delete_bytes tb pos len).content = deleteShadow tb.content pos len ∧
    (delete_bytes tb pos len).WF ∧
    (delete_bytes tb pos len).original = tb.original := by
  have htot : (tb.content).length = totalLen tb.pieces := contentOf_length hwf
  have hpos1 : pos ≤ totalLen tb.pieces := by omega
  obtain ⟨hs1, hs2⟩ := split_content hwf hpos1
  obtain ⟨hw1, hw2⟩ := split_WF hwf pos
  have hrest : totalLen (splitPieces tb.pieces pos).2
      = (tb.content).length - pos := by
    rw [← contentOf_length hw2, hs2, List.length_drop]
    rfl
  have hlen2 : len ≤ totalLen (splitPieces tb.pieces pos).2 := by omega
  obtain ⟨ht1, ht2⟩ := split_content hw2 hlen2
  obtain ⟨hv1, hv2⟩ := split_WF hw2 len
  rw [delete_bytes]
  refine ⟨?_, ?_, rfl⟩
  · show contentOf tb.original tb.added
      ((splitPieces tb.pieces pos).1 ++
        (splitPieces (splitPieces tb.pieces pos).2 len).2)
      = deleteShadow tb.content pos len
    rw [contentOf_append, hs1, ht2, hs2, List.drop_drop, deleteShadow, TextBuffer.content]
  · intro p hp
    simp only [List.mem_append] at hp
    rcases hp with hp | hp
    · exact hw1 p hp
    · exact hv2 p hp

theorem applyWriteOps_write_ops (tb : TextBuffer) :
    applyWriteOps tb.original (write_ops tb) = tb.content := by
  simp only [applyWriteOps, write_ops, TextBuffer.content, contentOf, List.map_map]
  congr 1
  apply List.map_congr_left
  intro p _
  cases p <;> rfl

theorem load_buffer_spec (file : List Nat) :
    (load_buffer file).content = file ∧ (load_buffer file).WF ∧
    (load_buffer file).original = file := by
  refine ⟨?_, ?_, rfl⟩
  · by_cases hf : file.isEmpty = true
    · have : file = [] := by simpa using hf
      subst this
      rfl
    · show contentOf file [] (if file.isEmpty then [] else [Piece.original 0 file.length]) = file
      rw [if_neg hf]
      simp [contentOf, resolve]
  · intro p hp
    have hp' : p ∈ (if file.isEmpty then ([] : List Piece)
        else [Piece.original 0 file.length]) := hp
    by_cases hf : file.isEmpty = true
    · rw [if_pos hf] at hp'
      simp at hp'
    · rw [if_neg hf] at hp'
      have hpe : p = Piece.original 0 file.length := by simpa using hp'
      subst hpe
      show PieceWF file [] (Piece.original 0 file.length)
      simp [PieceWF]

theorem runSys_inv (ops : List EditOp) :
    ∀ (s : SysState) (sh : List Nat), SysInv s sh → ValidOps sh ops →
      SysInv (ops.foldl stepSys s) (ops.foldl stepShadow sh) := by
  induction ops with
  | nil =>
    intro s sh hinv _
    exact hinv
  | cons op rest ih =>
    intro s sh hinv hv
    obtain ⟨h1, h2, h3⟩ := hinv
    obtain ⟨hop, hrest⟩ := hv
    rw [List.foldl_cons, List.foldl_cons]
    apply ih _ _ _ hrest
    cases op with
    | ins p d =>
      obtain ⟨hc, hw, ho⟩ := insert_bytes_spec h2 p d (by rw [h1]; exact hop)
      exact ⟨by rw [stepSys, stepShadow, hc, h1], hw, by rw [stepSys, ho, h3]⟩
    | del p l =>
      obtain ⟨hc, hw, ho⟩ := delete_bytes_spec h2 p l (by rw [h1]; exact hop)
      exact ⟨by rw [stepSys, stepShadow, hc, h1], hw, by rw [stepSys, ho, h3]⟩
    | saveReload =>
      have hdisk : applyWriteOps s.disk (write_ops s.buf) = sh := by
        rw [← h3, applyWriteOps_write_ops, h1]
      obtain ⟨hl1, hl2, hl3⟩ := load_buffer_spec (applyWriteOps s.disk (write_ops s.buf))
      refine ⟨?_, hl2, ?_⟩
      · rw [stepSys, stepShadow, hl1, hdisk]
      · rw [stepSys, hl3]

/-- C1: for every file loaded into a TextBuffer and every sequence of
`insert_bytes`/`delete_bytes` at valid offsets interleaved with
save-to-the-original-path-and-reload steps, the buffer's content equals the
shadow byte array subjected to the same edits; and after appending one more
save-and-reload, both the on-disk bytes and the freshly reloaded buffer's
content still equal the shadow. -/
theorem buffer_refines_shadow (file : List Nat) (ops : List EditOp)
    (hv : ValidOps file ops) :
    (runSys file ops).buf.content = runShadow file ops ∧
    (runSys file (ops ++ [EditOp.saveReload])).disk = runShadow file ops ∧
    (runSys file (ops ++ [EditOp.saveReload])).buf.content = runShadow file ops := by
  have hinv0 : SysInv ⟨file, load_buffer file⟩ file := by
    obtain ⟨h1, h2, h3⟩ := load_buffer_spec file
    exact ⟨h1, h2, h3⟩
  have hinv := runSys_inv ops _ _ hinv0 hv
  obtain ⟨h1x, h2x, h3x⟩ := hinv
  have h1 : (runSys file ops).buf.content = runShadow file ops := h1x
  have h3 : (runSys file ops).buf.original = (runSys file ops).disk := h3x
  have hstep : runSys file (ops ++ [EditOp.saveReload])
      = stepSys (runSys file ops) EditOp.saveReload := by
    rw [runSys, runSys, List.foldl_append, List.foldl_cons, List.foldl_nil]
  have hdisk : applyWriteOps (runSys file ops).disk (write_ops (runSys file ops).buf)
      = runShadow file ops := by
    rw [← h3, applyWriteOps_write_ops, h1]
  obtain ⟨hl1, _, _⟩ :=
    load_buffer_spec (applyWriteOps (runSys file ops).disk (write_ops (runSys file ops).buf))
  refine ⟨h1, ?_, ?_⟩
  · rw [hstep, stepSys, hdisk]
  · rw [hstep, stepSys, hl1, hdisk]

/-- Witness for C1: the file "abc" with an insert, a delete, and a
save-reload cycle; all offsets valid, and the refinement applies. -/
theorem buffer_refines_shadow_witness :
    ValidOps [97, 98, 99] [EditOp.ins 1 [88, 89], EditOp.del 2 1, EditOp.saveReload] ∧
    (runSys [97, 98, 99]
        [EditOp.ins 1 [88, 89], EditOp.del 2 1, EditOp.saveReload]).buf.content =
      runShadow [97, 98, 99] [EditOp.ins 1 [88, 89], EditOp.del 2 1, EditOp.saveReload] := by
  have hv : ValidOps [97, 98, 99] [EditOp.ins 1 [88, 89], EditOp.del 2 1, EditOp.saveReload] := by
    refine ⟨by decide, by decide, trivial, trivial⟩
  exact ⟨hv, (buffer_refines_shadow [97, 98, 99] _ hv).1⟩

end Buffer

namespace Channel

/-- No chunk is lost or reordered, and the channel never exceeds its
capacity, after any interleaving step. -/
theorem chanStep_invariant (cap : Nat) (chunks : List (List Nat)) (s : ChanState) (b : Bool)
    (h1 : s.recvd ++ s.buf = chunks.take s.sent) (h2 : s.sent ≤ chunks.length)
    (h3 : s.buf.length ≤ cap) :
    (chanStep cap chunks s b).recvd ++ (chanStep cap chunks s b).buf
        = chunks.take (chanStep cap chunks s b).sent ∧
    (chanStep cap chunks s b).sent ≤ chunks.length ∧
    (chanStep cap chunks s b).buf.length ≤ cap := by
  cases b with
  | true =>
    simp only [chanStep, if_true, producerStep]
    by_cases hc : s.sent < chunks.length ∧ s.buf.length < cap
    · rw [if_pos hc]
      have htake : chunks.take (s.sent + 1) = chunks.take s.sent ++ [chunks.getD s.sent []] := by
        rw [List.take_succ, List.getElem?_eq_getElem hc.1, List.getD_eq_getElem chunks [] hc.1]
        rfl
      refine ⟨?_, by dsimp only; omega, by dsimp only; simp only [List.length_append]; simp; omega⟩
      dsimp only
      rw [htake, ← List.append_assoc, h1]
    · rw [if_neg hc]
      exact ⟨h1, h2, h3⟩
  | false =>
    simp only [chanStep, Bool.false_eq_true, if_false]
    cases hb : s.buf with
    | nil =>
      simp only [consumerStep, hb]
      rw [hb, List.append_nil] at h1
      refine ⟨by rw [List.append_nil]; exact h1, h2, by simp⟩
    | cons c rest =>
      simp only [consumerStep, hb]
      rw [hb] at h1 h3
      refine ⟨?_, h2, by simp at h3 ⊢; omega⟩
      dsimp only
      rw [List.append_assoc, List.singleton_append, h1]

/-- The invariant holds after any schedule. -/
theorem runChan_invariant (cap : Nat) (chunks : List (List Nat)) (sched : List Bool) :
    (runChan cap chunks sched).recvd ++ (runChan cap chunks sched).buf
        = chunks.take (runChan cap chunks sched).sent ∧
    (runChan cap chunks sched).sent ≤ chunks.length ∧
    (runChan cap chunks sched).buf.length ≤ cap := by
  rw [runChan]
  generalize hs : (⟨0, [], []⟩ : ChanState) = s0
  have h0 : s0.recvd ++ s0.buf = chunks.take s0.sent ∧ s0.sent ≤ chunks.length ∧
      s0.buf.length ≤ cap := by
    subst hs
    exact ⟨rfl, by simp, by simp⟩
  clear hs
  induction sched generalizing s0 with
  | nil => exact h0
  | cons b rest ih =>
    rw [List.foldl_cons]
    exact ih _ (chanStep_invariant cap chunks s0 b h0.1 h0.2.1 h0.2.2)

/-- Chunking splits losslessly: the chunks flatten back to the input. -/
theorem chunksOfAux_flatten (sz : Nat) :
    ∀ (fuel : Nat) (l : List Nat), l.length ≤ fuel → (chunksOfAux fuel sz l).flatten = l := by
  intro fuel
  induction fuel with
  | zero =>
    intro l hl
    have : l = [] := by
      cases l with
      | nil => rfl
      | cons x xs => simp at hl
    subst this
    rfl
  | succ f ih =>
    intro l hl
    rw [chunksOfAux]
    by_cases h0 : l = []
    · rw [if_pos h0, List.flatten_nil]
      exact h0.symm
    · rw [if_neg h0]
      by_cases hsz : sz = 0
      · rw [if_pos hsz]
        simp
      · rw [if_neg hsz]
        rw [List.flatten_cons, ih (l.drop sz) ?hfuel, List.take_append_drop]
        case hfuel =>
          have hpos : 0 < l.length := List.length_pos.mpr h0
          simp only [List.length_drop]
          omega

theorem chunksOf_flatten (sz : Nat) (l : List Nat) : (chunksOf sz l).flatten = l :=
  chunksOfAux_flatten sz l.length l (le_refl _)

/-- Total bytes of a freshly loaded buffer equal the loaded byte count. -/
theorem load_buffer_total_bytes (bytes : List Nat) :
    (Buffer.load_buffer bytes).total_bytes = bytes.length := by
  by_cases hb : bytes.isEmpty = true
  · have : bytes = [] := by simpa using hb
    subst this
    rfl
  · show Buffer.totalLen (if bytes.isEmpty then [] else [Buffer.Piece.original 0 bytes.length])
        = bytes.length
    rw [if_neg hb]
    simp [Buffer.totalLen, Buffer.Piece.len]

/-- C2: streamed chunk delivery through the per-request bounded channel never
drops a chunk, for every channel capacity, chunk size, and interleaving of the
producer and the (arbitrarily slowed) consumer — the producer awaits
capacity instead of dropping; consequently, whenever the stream completes,
`total_bytes()` of the loaded buffer equals the file's byte size exactly. -/
theorem streaming_load_total_bytes (cap sz : Nat) (file : List Nat) (sched : List Bool) :
    ((runChan cap (chunksOf sz file) sched).recvd ++ (runChan cap (chunksOf sz file) sched).buf
        = (chunksOf sz file).take (runChan cap (chunksOf sz file) sched).sent ∧
     (runChan cap (chunksOf sz file) sched).buf.length ≤ cap) ∧
    (ChanComplete (chunksOf sz file) (runChan cap (chunksOf sz file) sched) →
      (Buffer.load_buffer (runChan cap (chunksOf sz file) sched).recvd.flatten).total_bytes
        = file.length) := by
  obtain ⟨h1, h2, h3⟩ := runChan_invariant cap (chunksOf sz file) sched
  refine ⟨⟨h1, h3⟩, ?_⟩
  intro hdone
  obtain ⟨hsent, hbuf⟩ := hdone
  have hrecvd : (runChan cap (chunksOf sz file) sched).recvd = chunksOf sz file := by
    have := h1
    rw [hbuf, hsent, List.append_nil, List.take_length] at this
    exact this
  rw [load_buffer_total_bytes, hrecvd, chunksOf_flatten]

/-- Witness for C2: capacity 2, chunk size 1, a 3-byte file, and a schedule
on which the producer twice fills the channel and must wait; the stream
completes and the loaded buffer holds exactly 3 bytes. -/
theorem streaming_load_total_bytes_witness :
    ChanComplete (chunksOf 1 [10, 20, 30])
        (runChan 2 (chunksOf 1 [10, 20, 30]) [true, true, true, false, true, false, false]) ∧
    (Buffer.load_buffer
        (runChan 2 (chunksOf 1 [10, 20, 30])
          [true, true, true, false, true, false, false]).recvd.flatten).total_bytes
      = ([10, 20, 30] : List Nat).length := by
  have hdone : ChanComplete (chunksOf 1 [10, 20, 30])
      (runChan 2 (chunksOf 1 [10, 20, 30]) [true, true, true, false, true, false, false]) := by
    constructor <;> decide
  exact ⟨hdone,
    (streaming_load_total_bytes 2 1 [10, 20, 30] [true, true, true, false, true, false, false]).2
      hdone⟩

end Channel

namespace Unicode

theorem encodeAll_append (a b : List Nat) :
    encodeAll (a ++ b) = encodeAll a ++ encodeAll b := by
  simp [encodeAll]

theorem encodeAll_cons (c : Nat) (cs : List Nat) :
    encodeAll (c :: cs) = utf8Encode c ++ encodeAll cs := by
  simp [encodeAll]

theorem utf8Encode_eq1 {c : Nat} (h : c < 0x80) : utf8Encode c = [c] := by
  rw [utf8Encode, if_pos h]

theorem utf8Encode_eq2 {c : Nat} (h1 : ¬ c < 0x80) (h2 : c < 0x800) :
    utf8Encode c = [0xC0 + c / 0x40, 0x80 + c % 0x40] := by
  rw [utf8Encode, if_neg h1, if_pos h2]

theorem utf8Encode_eq3 {c : Nat} (h1 : ¬ c < 0x80) (h2 : ¬ c < 0x800) (h3 : c < 0x10000) :
    utf8Encode c = [0xE0 + c / 0x1000, 0x80 + (c / 0x40) % 0x40, 0x80 + c % 0x40] := by
  rw [utf8Encode, if_neg h1, if_neg h2, if_pos h3]

theorem utf8Encode_eq4 {c : Nat} (h1 : ¬ c < 0x80) (h2 : ¬ c < 0x800) (h3 : ¬ c < 0x10000) :
    utf8Encode c =
      [0xF0 + c / 0x40000, 0x80 + (c / 0x1000) % 0x40, 0x80 + (c / 0x40) % 0x40,
        0x80 + c % 0x40] := by
  rw [utf8Encode, if_neg h1, if_neg h2, if_neg h3]

theorem utf8Encode_head_tail (c : Nat) (hc : c < 0x110000) :
    ∃ b bs, utf8Encode c = b :: bs ∧ isContByte b = false ∧ ∀ x ∈ bs, isContByte x = true := by
  by_cases h1 : c < 0x80
  · refine ⟨c, [], utf8Encode_eq1 h1, ?_, by simp⟩
    simp only [isContByte, decide_eq_false_iff_not]
    omega
  · by_cases h2 : c < 0x800
    · refine ⟨_, _, utf8Encode_eq2 h1 h2, ?_, ?_⟩
      · simp only [isContByte, decide_eq_false_iff_not]
        omega
      · intro x hx
        simp only [List.mem_singleton] at hx
        subst hx
        simp only [isContByte, decide_eq_true_eq]
        omega
    · by_cases h3 : c < 0x10000
      · refine ⟨_, _, utf8Encode_eq3 h1 h2 h3, ?_, ?_⟩
        · simp only [isContByte, decide_eq_false_iff_not]
          omega
        · intro x hx
          simp only [List.mem_cons, List.mem_singleton, List.not_mem_nil, or_false] at hx
          rcases hx with hx | hx <;> subst hx <;>
            simp only [isContByte, decide_eq_true_eq] <;> omega
      · refine ⟨_, _, utf8Encode_eq4 h1 h2 h3, ?_, ?_⟩
        · simp only [isContByte, decide_eq_false_iff_not]
          omega
        · intro x hx
          simp only [List.mem_cons, List.mem_singleton, List.not_mem_nil, or_false] at hx
          rcases hx with hx | hx | hx <;> subst hx <;>
            simp only [isContByte, decide_eq_true_eq] <;> omega

theorem dropLastScalarRev_run (xs : List Nat) (hxs : ∀ x ∈ xs, isContByte x = true)
    (b : Nat) (hb : isContByte b = false) (rest : List Nat) :
    dropLastScalarRev (xs ++ b :: rest) = rest := by
  induction xs with
  | nil =>
    simp only [List.nil_append, dropLastScalarRev, hb, Bool.false_eq_true, if_false]
  | cons x xs ih =>
    simp only [List.cons_append, dropLastScalarRev, hxs x (by simp), if_true]
    exact ih (fun y hy => hxs y (by simp [hy]))

theorem dropLastScalar_encodeAll (cs : List Nat) (hv : ∀ c ∈ cs, c < 0x110000)
    (hne : cs ≠ []) :
    dropLastScalar (encodeAll cs) = encodeAll cs.dropLast := by
  have hsplit : cs.dropLast ++ [cs.getLast hne] = cs := List.dropLast_append_getLast hne
  have henc : encodeAll cs = encodeAll cs.dropLast ++ utf8Encode (cs.getLast hne) := by
    conv_lhs => rw [← hsplit]
    rw [encodeAll_append]
    simp [encodeAll]
  obtain ⟨b, bs, hbe, hb, hbs⟩ :=
    utf8Encode_head_tail (cs.getLast hne) (hv _ (List.getLast_mem hne))
  rw [dropLastScalar, henc, hbe, List.reverse_append, List.reverse_cons, List.append_assoc,
    List.singleton_append,
    dropLastScalarRev_run bs.reverse (fun x hx => hbs x (List.mem_reverse.mp hx)) b hb,
    List.reverse_reverse]

theorem combiningStep_encode (m : Nat) (hm : m < 0x110000) (R : List Nat) :
    combiningStep (utf8Encode m ++ R) = if isCombining m then some R else none := by
  by_cases h1 : m < 0x80
  · rw [utf8Encode_eq1 h1, List.singleton_append, combiningStep, if_pos h1]
  · by_cases h2 : m < 0x800
    · rw [utf8Encode_eq2 h1 h2]
      have ed : dec2 (0xC0 + m / 0x40) (((0x80 + m % 0x40) :: R).getD 0 0) = m := by
        rw [List.getD_cons_zero, dec2]
        omega
      show combiningStep ((0xC0 + m / 0x40) :: (0x80 + m % 0x40) :: R) = _
      rw [combiningStep, if_neg (by omega), if_neg (by omega), if_pos (by omega), ed]
      by_cases hc : isCombining m = true
      · rw [if_pos hc, if_pos hc]
        rfl
      · rw [if_neg hc, if_neg hc]
    · by_cases h3 : m < 0x10000
      · rw [utf8Encode_eq3 h1 h2 h3]
        have ed : dec3 (0xE0 + m / 0x1000)
            (((0x80 + (m / 0x40) % 0x40) :: (0x80 + m % 0x40) :: R).getD 0 0)
            (((0x80 + (m / 0x40) % 0x40) :: (0x80 + m % 0x40) :: R).getD 1 0) = m := by
          simp only [List.getD_cons_zero, List.getD_cons_succ]
          rw [dec3]
          omega
        show combiningStep
            ((0xE0 + m / 0x1000) :: (0x80 + (m / 0x40) % 0x40) :: (0x80 + m % 0x40) :: R) = _
        rw [combiningStep, if_neg (by omega), if_neg (by omega), if_neg (by omega),
          if_pos (by omega), ed]
        by_cases hc : isCombining m = true
        · rw [if_pos hc, if_pos hc]
          rfl
        · rw [if_neg hc, if_neg hc]
      · rw [utf8Encode_eq4 h1 h2 h3]
        have ed : dec4 (0xF0 + m / 0x40000)
            (((0x80 + (m / 0x1000) % 0x40) :: (0x80 + (m / 0x40) % 0x40) ::
               (0x80 + m % 0x40) :: R).getD 0 0)
            (((0x80 + (m / 0x1000) % 0x40) :: (0x80 + (m / 0x40) % 0x40) ::
               (0x80 + m % 0x40) :: R).getD 1 0)
            (((0x80 + (m / 0x1000) % 0x40) :: (0x80 + (m / 0x40) % 0x40) ::
               (0x80 + m % 0x40) :: R).getD 2 0) = m := by
          simp only [List.getD_cons_zero, List.getD_cons_succ]
          rw [dec4]
          omega
        show combiningStep
            ((0xF0 + m / 0x40000) :: (0x80 + (m / 0x1000) % 0x40) ::
              (0x80 + (m / 0x40) % 0x40) :: (0x80 + m % 0x40) :: R) = _
        rw [combiningStep, if_neg (by omega), if_neg (by omega), if_neg (by omega),
          if_neg (by omega), ed]
        by_cases hc : isCombining m = true
        · rw [if_pos hc, if_pos hc]
          rfl
        · rw [if_neg hc, if_neg hc]

theorem utf8Encode_length_pos (c : Nat) : 0 < (utf8Encode c).length := by
  rw [utf8Encode]
  split
  · simp
  · split
    · simp
    · split <;> simp

theorem dropCombiningAux_marks (marks : List Nat)
    (hm : ∀ m ∈ marks, m < 0x110000 ∧ isCombining m = true) (suf : List Nat)
    (hs : ∀ s, suf.head? = some s → s < 0x110000 ∧ isCombining s = false) :
    ∀ fuel, (encodeAll (marks ++ suf)).length ≤ fuel →
      dropCombiningAux fuel (encodeAll (marks ++ suf)) = encodeAll suf := by
  induction marks with
  | nil =>
    intro fuel _
    rw [List.nil_append]
    cases suf with
    | nil =>
      cases fuel with
      | zero => rfl
      | succ f => rfl
    | cons s rest =>
      obtain ⟨hv, hcomb⟩ := hs s rfl
      cases fuel with
      | zero => rfl
      | succ f =>
        rw [dropCombiningAux, encodeAll_cons, combiningStep_encode s hv,
          if_neg (by simp [hcomb]), ← encodeAll_cons]
  | cons m marks ih =>
    intro fuel hfuel
    obtain ⟨hv, hcomb⟩ := hm m (by simp)
    rw [List.cons_append, encodeAll_cons] at hfuel ⊢
    have hpos := utf8Encode_length_pos m
    obtain ⟨f, rfl⟩ : ∃ f, fuel = f + 1 := ⟨fuel - 1, by
      rw [List.length_append] at hfuel
      omega⟩
    rw [dropCombiningAux, combiningStep_encode m hv, if_pos (by simp [hcomb])]
    show dropCombiningAux f (encodeAll (marks ++ suf)) = encodeAll suf
    refine ih (fun x hx => hm x (by simp [hx])) f ?_
    rw [List.length_append] at hfuel
    omega

end Unicode

namespace Unicode

theorem dropClusterBytes_encode (c : Nat) (hc : c < 0x110000) (R : List Nat) :
    dropClusterBytes (utf8Encode c ++ R) = dropCombining R := by
  by_cases h1 : c < 0x80
  · rw [utf8Encode_eq1 h1, List.singleton_append, dropClusterBytes, if_pos h1]
  · by_cases h2 : c < 0x800
    · rw [utf8Encode_eq2 h1 h2]
      show dropClusterBytes ((0xC0 + c / 0x40) :: (0x80 + c % 0x40) :: R) = _
      rw [dropClusterBytes, if_neg (by omega), if_neg (by omega), if_pos (by omega)]
      rfl
    · by_cases h3 : c < 0x10000
      · rw [utf8Encode_eq3 h1 h2 h3]
        show dropClusterBytes
            ((0xE0 + c / 0x1000) :: (0x80 + (c / 0x40) % 0x40) :: (0x80 + c % 0x40) :: R) = _
        rw [dropClusterBytes, if_neg (by omega), if_neg (by omega), if_neg (by omega),
          if_pos (by omega)]
        rfl
      · rw [utf8Encode_eq4 h1 h2 h3]
        show dropClusterBytes
            ((0xF0 + c / 0x40000) :: (0x80 + (c / 0x1000) % 0x40) ::
              (0x80 + (c / 0x40) % 0x40) :: (0x80 + c % 0x40) :: R) = _
        rw [dropClusterBytes, if_neg (by omega), if_neg (by omega), if_neg (by omega),
          if_neg (by omega)]
        rfl

theorem dropCombining_marks (marks : List Nat)
    (hm : ∀ m ∈ marks, m < 0x110000 ∧ isCombining m = true) (suf : List Nat)
    (hs : ∀ s, suf.head? = some s → s < 0x110000 ∧ isCombining s = false) :
    dropCombining (encodeAll (marks ++ suf)) = encodeAll suf :=
  dropCombiningAux_marks marks hm suf hs _ (le_refl _)

/-- C6: with the cursor immediately after a grapheme cluster, one backspace
removes exactly the final Unicode scalar value (so a 3-code-point cluster
takes exactly three backspaces, last code point first), while one
forward-delete with the cursor immediately before a cluster (base plus
combining marks) removes the entire cluster's bytes at once. -/
theorem backspace_scalar_delete_cluster :
    (∀ (pre cluster suf : List Nat), (∀ c ∈ pre ++ cluster ++ suf, c < 0x110000) →
      cluster ≠ [] →
      backspaceAt (encodeAll (pre ++ cluster ++ suf)) (encodeAll (pre ++ cluster)).length
        = encodeAll (pre ++ cluster.dropLast ++ suf)) ∧
    (∀ (pre : List Nat) (base : Nat) (marks suf : List Nat),
      (∀ c ∈ pre, c < 0x110000) → base < 0x110000 →
      (∀ m ∈ marks, m < 0x110000 ∧ isCombining m = true) →
      (∀ s, suf.head? = some s → s < 0x110000 ∧ isCombining s = false) →
      deleteClusterAt (encodeAll (pre ++ (base :: marks) ++ suf)) (encodeAll pre).length
        = encodeAll (pre ++ suf)) := by
  constructor
  · intro pre cluster suf hv hne
    rw [show pre ++ cluster ++ suf = (pre ++ cluster) ++ suf from rfl,
      encodeAll_append (pre ++ cluster) suf, backspaceAt, List.take_left, List.drop_left]
    rw [dropLastScalar_encodeAll (pre ++ cluster)
      (fun c hc => hv c (by simp [List.mem_append] at hc ⊢; tauto))
      (fun h => hne (List.append_eq_nil.mp h).2)]
    rw [List.dropLast_append_of_ne_nil pre hne, ← encodeAll_append]
  · intro pre base marks suf hpre hbase hmarks hsuf
    rw [List.append_assoc, encodeAll_append pre ((base :: marks) ++ suf), deleteClusterAt,
      List.take_left, List.drop_left, List.cons_append, encodeAll_cons,
      dropClusterBytes_encode base hbase, dropCombining_marks marks hmarks suf hsuf,
      ← encodeAll_append]

/-- Witness for C6: the Thai cluster of `test_thai_backspace_layer_by_layer`
(U+0E17 U+0E35 U+0E48) peeled by three backspaces, one code point at a time,
and the first cluster of `test_thai_delete_entire_cluster` removed whole by
one forward delete. -/
theorem backspace_scalar_delete_cluster_witness :
    ((∀ c ∈ ([] : List Nat) ++ [0xE17, 0xE35, 0xE48] ++ [], c < 0x110000) ∧
      ([0xE17, 0xE35, 0xE48] : List Nat) ≠ []) ∧
    backspaceAt (encodeAll [0xE17, 0xE35, 0xE48]) (encodeAll [0xE17, 0xE35, 0xE48]).length
      = encodeAll [0xE17, 0xE35] ∧
    backspaceAt (encodeAll [0xE17, 0xE35]) (encodeAll [0xE17, 0xE35]).length
      = encodeAll [0xE17] ∧
    backspaceAt (encodeAll [0xE17]) (encodeAll [0xE17]).length = encodeAll [] ∧
    deleteClusterAt (encodeAll [0xE17, 0xE35, 0xE48, 0xE19, 0xE35, 0xE48]) 0
      = encodeAll [0xE19, 0xE35, 0xE48] := by
  refine ⟨⟨by decide, by decide⟩, ?_, ?_, ?_, ?_⟩
  · exact backspace_scalar_delete_cluster.1 [] [0xE17, 0xE35, 0xE48] [] (by decide) (by decide)
  · exact backspace_scalar_delete_cluster.1 [] [0xE17, 0xE35] [] (by decide) (by decide)
  · exact backspace_scalar_delete_cluster.1 [] [0xE17] [] (by decide) (by decide)
  · exact backspace_scalar_delete_cluster.2 [] 0xE17 [0xE35, 0xE48] [0xE19, 0xE35, 0xE48]
      (by decide) (by decide) (by decide) (by decide)

end Unicode

namespace Unicode

theorem bLen_pos {cl : List Nat} (h : cl ≠ []) : 0 < bLen cl := by
  cases cl with
  | nil => exact absurd rfl h
  | cons c cs =>
    rw [bLen, encodeAll_cons, List.length_append]
    have := utf8Encode_length_pos c
    omega

theorem IsBoundary_zero (cs : List (List Nat)) : IsBoundary cs 0 := by
  cases cs with
  | nil => rfl
  | cons c rest => exact Or.inl rfl

theorem moveRight_gt {cs : List (List Nat)} (hok : ∀ cl ∈ cs, cl ≠ []) {p q : Nat}
    (h : moveRight cs p = some q) : p < q := by
  induction cs generalizing p q with
  | nil => exact absurd h (by rw [moveRight]; simp)
  | cons c rest ih =>
    rw [moveRight] at h
    by_cases hp : p = 0
    · rw [if_pos hp] at h
      have hq : q = bLen c := (Option.some_inj.mp h).symm
      have := bLen_pos (hok c (by simp))
      omega
    · rw [if_neg hp] at h
      obtain ⟨q1, hq1, hq⟩ := Option.map_eq_some'.mp h
      have := ih (fun cl hcl => hok cl (by simp [hcl])) hq1
      omega

theorem moveRight_boundary {cs : List (List Nat)} {p q : Nat}
    (hb : IsBoundary cs p) (h : moveRight cs p = some q) : IsBoundary cs q := by
  induction cs generalizing p q with
  | nil => exact absurd h (by rw [moveRight]; simp)
  | cons c rest ih =>
    rw [moveRight] at h
    by_cases hp : p = 0
    · rw [if_pos hp] at h
      have hq : q = bLen c := (Option.some_inj.mp h).symm
      subst hq
      exact Or.inr ⟨le_refl _, by simpa using IsBoundary_zero rest⟩
    · rw [if_neg hp] at h
      obtain ⟨q1, hq1, hq⟩ := Option.map_eq_some'.mp h
      subst hq
      rcases hb with hb | ⟨hble, hbrest⟩
      · exact absurd hb hp
      · refine Or.inr ⟨by omega, ?_⟩
        have : q1 + bLen c - bLen c = q1 := by omega
        rw [this]
        exact ih hbrest hq1

theorem moveLeft_moveRight {cs : List (List Nat)} (hok : ∀ cl ∈ cs, cl ≠ []) {p q : Nat}
    (hb : IsBoundary cs p) (h : moveRight cs p = some q) : moveLeft cs q = some p := by
  induction cs generalizing p q with
  | nil => exact absurd h (by rw [moveRight]; simp)
  | cons c rest ih =>
    have hcpos := bLen_pos (hok c (by simp))
    rw [moveRight] at h
    by_cases hp : p = 0
    · rw [if_pos hp] at h
      have hq : q = bLen c := (Option.some_inj.mp h).symm
      subst hq
      rw [moveLeft, if_neg (by omega), if_pos rfl, hp]
    · rw [if_neg hp] at h
      obtain ⟨q1, hq1, hq⟩ := Option.map_eq_some'.mp h
      subst hq
      rcases hb with hb | ⟨hble, hbrest⟩
      · exact absurd hb hp
      · have hq1pos : 0 < q1 := by
          have hgt := moveRight_gt (fun cl hcl => hok cl (by simp [hcl])) hq1
          omega
        rw [moveLeft, if_neg (by omega), if_neg (by omega), if_neg (by omega)]
        have harg : q1 + bLen c - bLen c = q1 := by omega
        rw [harg, ih (fun cl hcl => hok cl (by simp [hcl])) hbrest hq1]
        rw [Option.map_some']
        congr 1
        omega

/-- C7: on content made of grapheme clusters of any byte width (ASCII, 2-, 3-
and 4-byte scalars and multi-code-point clusters), moving the cursor right by
N grapheme steps from a cluster boundary and then left by N steps returns it
to its original byte offset. -/
theorem grapheme_right_left_roundtrip (cs : List (List Nat)) (hok : ∀ cl ∈ cs, cl ≠ [])
    (N : Nat) : ∀ (p q : Nat), IsBoundary cs p → moveRightN cs N p = some q →
      moveLeftN cs N q = some p := by
  induction N with
  | zero =>
    intro p q _ h
    have : p = q := Option.some_inj.mp h
    subst this
    rfl
  | succ n ih =>
    intro p q hb h
    rw [moveRightN] at h
    obtain ⟨q1, hq1, hqn⟩ := Option.bind_eq_some.mp h
    rw [moveLeftN, ih q1 q (moveRight_boundary hb hq1) hqn, Option.some_bind]
    exact moveLeft_moveRight hok hb hq1

/-- Witness for C7: the content "a" + Thai cluster + "b" of
`test_thai_grapheme_cluster_movement`; three rights from offset 0 reach byte
11 through bytes 1 and 10, and three lefts return to 0. -/
theorem grapheme_right_left_roundtrip_witness :
    ((∀ cl ∈ [[97], [0xE17, 0xE35, 0xE48], [98]], cl ≠ ([] : List Nat)) ∧
      IsBoundary [[97], [0xE17, 0xE35, 0xE48], [98]] 0 ∧
      moveRightN [[97], [0xE17, 0xE35, 0xE48], [98]] 3 0 = some 11) ∧
    moveRightN [[97], [0xE17, 0xE35, 0xE48], [98]] 1 0 = some 1 ∧
    moveRightN [[97], [0xE17, 0xE35, 0xE48], [98]] 2 0 = some 10 ∧
    moveLeftN [[97], [0xE17, 0xE35, 0xE48], [98]] 3 11 = some 0 := by
  have h1 : ∀ cl ∈ [[97], [0xE17, 0xE35, 0xE48], [98]], cl ≠ ([] : List Nat) := by decide
  have h2 : IsBoundary [[97], [0xE17, 0xE35, 0xE48], [98]] 0 :=
    IsBoundary_zero _
  have h3 : moveRightN [[97], [0xE17, 0xE35, 0xE48], [98]] 3 0 = some 11 := by decide
  exact ⟨⟨h1, h2, h3⟩, by decide, by decide,
    grapheme_right_left_roundtrip [[97], [0xE17, 0xE35, 0xE48], [98]] h1 3 0 11 h2 h3⟩

end Unicode

namespace Modified

/-- The editor state and the reference state stay in lock-step: same content
and undo stack, and the recorded fingerprint is the fingerprint of the
reference's last-saved content. -/
theorem runEd_runRef (file : List Nat) (script : List EdOp) :
    (runEd file script).content = (runRef file script).content ∧
    (runEd file script).savedFp = Recovery.compute_checksum (runRef file script).saved ∧
    (runEd file script).undoStack = (runRef file script).stack := by
  rw [runEd, runRef]
  generalize hb : loadEd file = b0
  generalize hr : (⟨file, file, []⟩ : RefState) = r0
  have h0 : b0.content = r0.content ∧ b0.savedFp = Recovery.compute_checksum r0.saved ∧
      b0.undoStack = r0.stack := by
    subst hb hr
    exact ⟨rfl, rfl, rfl⟩
  clear hb hr
  induction script generalizing b0 r0 with
  | nil => exact h0
  | cons op rest ih =>
    rw [List.foldl_cons, List.foldl_cons]
    apply ih
    obtain ⟨h1, h2, h3⟩ := h0
    cases op with
    | ins p d => exact ⟨by rw [stepEd, stepRef, h1], by rw [stepEd, stepRef, h2], by
        rw [stepEd, stepRef, h1, h3]⟩
    | del p l => exact ⟨by rw [stepEd, stepRef, h1], by rw [stepEd, stepRef, h2], by
        rw [stepEd, stepRef, h1, h3]⟩
    | save => exact ⟨by rw [stepEd, stepRef, h1], by rw [stepEd, stepRef, h1], by
        rw [stepEd, stepRef, h3]⟩
    | undo =>
      rw [stepEd, stepRef, h3]
      cases hs : r0.stack with
      | nil => exact ⟨h1, h2, by rw [h3, hs]⟩
      | cons c cs => exact ⟨rfl, h2, rfl⟩

/-- C8: the modified flag is exactly "current content differs from the
content at the last successful save" (a fingerprint comparison, not a history
position): after a save it is false; after any further nonempty insert or
any further in-range delete it is true; and along any script with undos, it
is false precisely when the content equals the last-saved content — so
undoing back to exactly the saved content clears it, and undoing past the
save point to any different content (including the original) sets it. -/
theorem modified_flag_tracks_saved_content (file : List Nat) :
    (∀ script : List EdOp, is_modified (runEd file script)
        = decide ((runRef file script).content ≠ (runRef file script).saved)) ∧
    (∀ script : List EdOp, is_modified (runEd file (script ++ [EdOp.save])) = false) ∧
    (∀ (script : List EdOp) (p : Nat) (d : List Nat), d ≠ [] →
      is_modified (runEd file (script ++ [EdOp.save, EdOp.ins p d])) = true) ∧
    (∀ (script : List EdOp) (p l : Nat), 1 ≤ l →
      p + l ≤ (runRef file (script ++ [EdOp.save])).content.length →
      is_modified (runEd file (script ++ [EdOp.save, EdOp.del p l])) = true) := by
  have key : ∀ script : List EdOp, is_modified (runEd file script)
      = decide ((runRef file script).content ≠ (runRef file script).saved) := by
    intro script
    obtain ⟨h1, h2, h3⟩ := runEd_runRef file script
    rw [is_modified, h1, h2]
    by_cases h : (runRef file script).content = (runRef file script).saved
    · simp [h, Recovery.compute_checksum]
    · simp only [h, decide_not]
      simp [Recovery.compute_checksum, h]
  have hrun_app : ∀ (script : List EdOp) (op : EdOp),
      runRef file (script ++ [op]) = stepRef (runRef file script) op := by
    intro script op
    rw [runRef, runRef, List.foldl_append, List.foldl_cons, List.foldl_nil]
  have hrun_app2 : ∀ (script : List EdOp) (op1 op2 : EdOp),
      runRef file (script ++ [op1, op2])
        = stepRef (stepRef (runRef file script) op1) op2 := by
    intro script op1 op2
    rw [runRef, runRef, List.foldl_append, List.foldl_cons, List.foldl_cons, List.foldl_nil]
  refine ⟨key, ?_, ?_, ?_⟩
  · intro script
    rw [key, hrun_app]
    simp [stepRef]
  · intro script p d hd
    rw [key, hrun_app2]
    simp only [stepRef, decide_eq_true_eq]
    intro hcontra
    have := congrArg List.length hcontra
    simp only [Buffer.insertShadow, List.length_append, List.length_take, List.length_drop]
      at this
    have hdl : 0 < d.length := List.length_pos.mpr hd
    omega
  · intro script p l hl hrange
    rw [hrun_app] at hrange
    simp only [stepRef] at hrange
    rw [key, hrun_app2]
    simp only [stepRef, decide_eq_true_eq]
    intro hcontra
    have := congrArg List.length hcontra
    simp only [Buffer.deleteShadow, List.length_append, List.length_take, List.length_drop]
      at this
    omega

/-- Witness for C8: the scenario of
`test_undo_returns_to_saved_state_not_original` on an empty file — type "He",
save (unmodified), type " W" (modified), undo twice back to the saved "He"
(unmodified again), undo once more past the save point to "H" (modified), and
once more to the original empty content (still modified). -/
theorem modified_flag_tracks_saved_content_witness :
    is_modified (runEd [] [EdOp.ins 0 [72], EdOp.ins 1 [101], EdOp.save]) = false ∧
    (([32] : List Nat) ≠ [] ∧
      is_modified (runEd []
        [EdOp.ins 0 [72], EdOp.ins 1 [101], EdOp.save, EdOp.ins 2 [32]]) = true) ∧
    is_modified (runEd []
      [EdOp.ins 0 [72], EdOp.ins 1 [101], EdOp.save, EdOp.ins 2 [32], EdOp.ins 3 [87],
        EdOp.undo, EdOp.undo]) = false ∧
    is_modified (runEd []
      [EdOp.ins 0 [72], EdOp.ins 1 [101], EdOp.save, EdOp.ins 2 [32], EdOp.ins 3 [87],
        EdOp.undo, EdOp.undo, EdOp.undo]) = true ∧
    is_modified (runEd []
      [EdOp.ins 0 [72], EdOp.ins 1 [101], EdOp.save, EdOp.ins 2 [32], EdOp.ins 3 [87],
        EdOp.undo, EdOp.undo, EdOp.undo, EdOp.undo]) = true := by
  refine ⟨?_, ⟨by decide, ?_⟩, ?_, ?_, ?_⟩
  · exact ((modified_flag_tracks_saved_content []).2.1
      [EdOp.ins 0 [72], EdOp.ins 1 [101]])
  · exact ((modified_flag_tracks_saved_content []).2.2.1
      [EdOp.ins 0 [72], EdOp.ins 1 [101]] 2 [32] (by decide))
  · rw [(modified_flag_tracks_saved_content []).1]
    decide
  · rw [(modified_flag_tracks_saved_content []).1]
    decide
  · rw [(modified_flag_tracks_saved_content []).1]
    decide

end Modified
